import Mathlib

/-!
# Music file sorter: classifier, sanitizer, collision resolver

A shallow embedding of `src/Music_File_Sorter.go`.

Modelling conventions.

* A Go `string` is modelled as the list of its Unicode code points (`Str`).
  This covers every valid UTF-8 text; all characters the program singles out
  (`-`, `.`, quotes, separators, white space, digits) are ASCII.
* The regular expressions of the program are all concatenations of quantified
  single-character classes, optionally anchored.  `Regex` is that fragment,
  and the matcher is the priority-ordered backtracking search whose first
  result is the match Go's `regexp` package reports (leftmost start, then
  greedy/lazy preference from left to right).
* `path/filepath` is modelled for the Unix build (separator `/`).
* The file system is an explicit finite state: the existing regular files and
  directories, the directories that may not be searched, and the limit on the
  length of a name.  `os.Stat` has three outcomes, as the program tells them
  apart: success, "does not exist", and any other error.
-/

namespace MusicSorter

/-- A Go string, as the list of its code points. -/
abbrev Str := List Char

/-! ## Character classes -/

/-- The double quote character. -/
def dquote : Char := Char.ofNat 34

/-- The backslash character. -/
def backslash : Char := Char.ofNat 92

/-- The class `\s` of Go's `regexp`: `[\t\n\f\r ]`. -/
def reSpace (c : Char) : Bool :=
  c = Char.ofNat 9 || c = Char.ofNat 10 || c = Char.ofNat 12 || c = Char.ofNat 13 || c = ' '

/-- The class `\d` of Go's `regexp`: `[0-9]`. -/
def reDigit (c : Char) : Bool :=
  decide ('0'.toNat ≤ c.toNat) && decide (c.toNat ≤ '9'.toNat)

/-- The class `\w` of Go's `regexp`: `[0-9A-Za-z_]`. -/
def reWord (c : Char) : Bool :=
  reDigit c
    || (decide ('A'.toNat ≤ c.toNat) && decide (c.toNat ≤ 'Z'.toNat))
    || (decide ('a'.toNat ≤ c.toNat) && decide (c.toNat ≤ 'z'.toNat))
    || c = '_'

/-- The class `.` of Go's `regexp` (no `s` flag): every character but the newline. -/
def reAny (c : Char) : Bool := !(c = Char.ofNat 10)

/-- The literal class, one given character. -/
def reLit (a : Char) (c : Char) : Bool := c = a

/-- The negated class `[^a]`, every character but the given one (newline included). -/
def reNot (a : Char) (c : Char) : Bool := !(c = a)

/-- Go's `unicode.IsSpace`: the Latin-1 white space and the `White_Space` code points. -/
def isSpace (c : Char) : Bool :=
  let n := c.toNat
  (decide (9 ≤ n) && decide (n ≤ 13)) || n = 32 || n = 133 || n = 160 || n = 5760
    || (decide (8192 ≤ n) && decide (n ≤ 8202))
    || n = 8232 || n = 8233 || n = 8239 || n = 8287 || n = 12288

/-- Go's `strings.TrimSpace`: white space removed at both ends. -/
def trimSpace (s : Str) : Str :=
  (s.dropWhile isSpace).rdropWhile isSpace

/-! ## The regular-expression fragment -/

/-- Quantifier of an atom: exactly one, `*`, `+`, or the lazy `+?`. -/
inductive Quant where
  | one
  | star
  | plus
  | lazyPlus
  deriving DecidableEq, Repr

/-- One quantified character class. -/
structure Atom where
  cls : Char → Bool
  q : Quant

/-- An anchored or unanchored concatenation of atoms; capture group 1 spans
the first `group1` atoms. -/
structure Regex where
  bol : Bool
  atoms : List Atom
  eol : Bool
  group1 : Nat

/-- Length of the longest prefix whose characters all satisfy the class. -/
def runLen (p : Char → Bool) : Str → Nat
  | [] => 0
  | c :: cs => if p c then runLen p cs + 1 else 0

/-- The repetition counts a quantifier tries, in the order the backtracking
search tries them, when at most `n` characters of the class are available. -/
def Quant.candidates : Quant → Nat → List Nat
  | .one, n => if 1 ≤ n then [1] else []
  | .star, n => (List.range (n + 1)).reverse
  | .plus, n => ((List.range n).map (· + 1)).reverse
  | .lazyPlus, n => (List.range n).map (· + 1)

/-- Backtracking match of a sequence of atoms at the start of `s`; the result
lists how many characters each atom consumed.  With `eol` the match has to end
at the end of the text. -/
def matchSeq (eol : Bool) : List Atom → Str → Option (List Nat)
  | [], s => if eol && !s.isEmpty then none else some []
  | a :: as, s =>
      (a.q.candidates (runLen a.cls s)).findSome?
        (fun k => (matchSeq eol as (s.drop k)).map (k :: ·))

/-- Match attempt at the current position; `first` tells whether this position
is the beginning of the text (where `^` matches). -/
def matchHere (re : Regex) (first : Bool) (s : Str) : Option (List Nat) :=
  if re.bol && !first then none else matchSeq re.eol re.atoms s

/-- Leftmost match in `s`: offset of its start and the consumed lengths. -/
def search (re : Regex) : Bool → Str → Option (Nat × List Nat)
  | first, [] => (matchHere re first []).map (fun ks => (0, ks))
  | first, c :: t =>
      match matchHere re first (c :: t) with
      | some ks => some (0, ks)
      | none => (search re false t).map (fun r => (r.1 + 1, r.2))

/-- Go's `Regexp.FindStringSubmatch`: `none` for Go's `nil`, otherwise the
whole match followed by the text of group 1. -/
def findStringSubmatch (re : Regex) (s : Str) : Option (List Str) :=
  (search re true s).map fun r =>
    [(s.drop r.1).take r.2.sum, (s.drop r.1).take (r.2.take re.group1).sum]

/-- Go's `Regexp.MatchString`. -/
def matchString (re : Regex) (s : Str) : Bool := (search re true s).isSome

/-- Loop of Go's `Regexp.ReplaceAllString` with a literal replacement: `s` is
the text from the search position on, `first` says the position is 0,
`justMatched` that the previous match ended here (an empty match right after a
match is not replaced). -/
def replaceAllLoop (re : Regex) (repl : Str) : Nat → Bool → Bool → Str → Str
  | 0, _, _, s => s
  | fuel + 1, first, justMatched, s =>
      match search re first s with
      | none => s
      | some (i, ks) =>
          let len := ks.sum
          let ins := if len = 0 ∧ i = 0 ∧ justMatched = true then [] else repl
          if len = 0 then
            match s.drop i with
            | [] => s.take i ++ ins
            | c :: t => s.take i ++ ins ++ c :: replaceAllLoop re repl fuel false false t
          else
            s.take i ++ ins ++ replaceAllLoop re repl fuel false true (s.drop (i + len))

/-- Go's `Regexp.ReplaceAllString(src, repl)` for a replacement without `$`. -/
def replaceAllString (re : Regex) (src repl : Str) : Str :=
  replaceAllLoop re repl (src.length + 1) true false src

/-! ## `strings.ReplaceAll` -/

/-- Left-to-right scan of `strings.ReplaceAll` for a non-empty `old`; `skip`
counts the characters of the current occurrence still to be dropped. -/
def replaceScan (old new : Str) : Nat → Str → Str
  | _, [] => []
  | skip + 1, _ :: t => replaceScan old new skip t
  | 0, c :: t =>
      if old.isPrefixOf (c :: t) then new ++ replaceScan old new (old.length - 1) t
      else c :: replaceScan old new 0 t

/-- Go's `strings.ReplaceAll(s, old, new)`. -/
def stringsReplaceAll (s old new : Str) : Str :=
  if old = [] then new ++ s.flatMap (fun c => c :: new) else replaceScan old new 0 s

/-! ## The patterns of the program -/

/-- The pattern `^([^\-]+?)\s*-\s*[^\.]+\.\w+$` of `sortFilesByArtist`. -/
def pattern : Regex where
  bol := true
  atoms := [⟨reNot '-', .lazyPlus⟩, ⟨reSpace, .star⟩, ⟨reLit '-', .one⟩, ⟨reSpace, .star⟩,
            ⟨reNot '.', .plus⟩, ⟨reLit '.', .one⟩, ⟨reWord, .plus⟩]
  eol := true
  group1 := 1

/-- The atoms of a literal word. -/
def litAtoms (w : Str) : List Atom := w.map (fun a => ⟨reLit a, .one⟩)

/-- The pattern `\s+<marker>\.\s+.*$` shared by the `ft.`, `feat.` and `vs.` rules. -/
def markerPattern (marker : Str) : Regex where
  bol := false
  atoms := [⟨reSpace, .plus⟩] ++ litAtoms marker ++
            [⟨reLit '.', .one⟩, ⟨reSpace, .plus⟩, ⟨reAny, .star⟩]
  eol := true
  group1 := 0

/-- The pattern `^\[\d+\]\s*`. -/
def leadingIndexPattern : Regex :=
  ⟨true, [⟨reLit '[', .one⟩, ⟨reDigit, .plus⟩, ⟨reLit ']', .one⟩, ⟨reSpace, .star⟩], false, 0⟩

/-- The pattern `^\d+\.\s*`. -/
def leadingNumberPattern : Regex :=
  ⟨true, [⟨reDigit, .plus⟩, ⟨reLit '.', .one⟩, ⟨reSpace, .star⟩], false, 0⟩

/-- The pattern `\s+\([^)]*\)$`. -/
def trailingParenPattern : Regex :=
  ⟨false, [⟨reSpace, .plus⟩, ⟨reLit '(', .one⟩, ⟨reNot ')', .star⟩, ⟨reLit ')', .one⟩], true, 0⟩

/-- The pattern `\s+\[[^\]]*\]$`. -/
def trailingBracketPattern : Regex :=
  ⟨false, [⟨reSpace, .plus⟩, ⟨reLit '[', .one⟩, ⟨reNot ']', .star⟩, ⟨reLit ']', .one⟩], true, 0⟩

/-- The list `patternsToRemove` of `cleanArtistName`, in source order; the
last three are `\s+ft\.\s+.*$`, `\s+feat\.\s+.*$` and `\s+vs\.\s+.*$`. -/
def patternsToRemove : List Regex :=
  [leadingIndexPattern, leadingNumberPattern, trailingParenPattern, trailingBracketPattern,
    markerPattern "ft".toList, markerPattern "feat".toList, markerPattern "vs".toList]

/-! ## `cleanArtistName` and the classification step -/

/-- The function `cleanArtistName` of the program. -/
def cleanArtistName (name : Str) : Str :=
  let result := trimSpace name
  let result := patternsToRemove.foldl (fun r p => replaceAllString p r []) result
  let result := stringsReplaceAll result [':'] " -".toList
  let result := stringsReplaceAll result ['/'] " & ".toList
  let result := stringsReplaceAll result [backslash] " & ".toList
  let result := stringsReplaceAll result ['?'] []
  let result := stringsReplaceAll result ['*'] []
  let result := stringsReplaceAll result [dquote] [Char.ofNat 39]
  let result := stringsReplaceAll result ['<'] ['(']
  let result := stringsReplaceAll result ['>'] [')']
  let result := stringsReplaceAll result ['|'] ['-']
  trimSpace result

/-- The classification step of the processing loop (lines 140-147):
`FindStringSubmatch`, the `nil`/length guard, and `TrimSpace` of group 1.
`none` is the `continue` branch ("Unmatched"). -/
def classify (fileName : Str) : Option Str :=
  match findStringSubmatch pattern fileName with
  | none => none
  | some ms => if ms.length < 2 then none else some (trimSpace (ms.getD 1 []))

/-! ## `path/filepath` (Unix build) -/

/-- Go's `os.IsPathSeparator` on Unix. -/
def isPathSeparator (c : Char) : Bool := c = '/'

/-- Backward scan of `filepath.Ext`: `rev` is the text still to scan, last
character first, `acc` the characters already passed. -/
def extScan : Str → Str → Str
  | [], _ => []
  | c :: rev, acc =>
      if isPathSeparator c then []
      else if c = '.' then c :: acc
      else extScan rev (c :: acc)

/-- Go's `filepath.Ext`: the suffix starting at the last dot of the last path
element, or the empty string. -/
def filepathExt (path : Str) : Str := extScan path.reverse []

/-- Go's `strings.TrimSuffix`. -/
def trimSuffix (s suffix : Str) : Str :=
  if suffix.isSuffixOf s then s.take (s.length - suffix.length) else s

/-- Go's `filepath.Base` on Unix. -/
def filepathBase (path : Str) : Str :=
  if path = [] then ['.']
  else
    let stripped := path.rdropWhile isPathSeparator
    let last := (stripped.reverse.takeWhile (fun c => !isPathSeparator c)).reverse
    if last = [] then ['/'] else last

/-- The path elements between separators (empty elements included). -/
def splitSep : Str → List Str
  | [] => [[]]
  | c :: cs =>
      if isPathSeparator c then [] :: splitSep cs
      else
        match splitSep cs with
        | [] => [[c]]
        | h :: t => (c :: h) :: t

/-- One element of the lexical processing of `filepath.Clean`; `out` holds the
elements written so far, last one first. -/
def cleanStep (rooted : Bool) (out : List Str) (e : Str) : List Str :=
  if e = [] ∨ e = ['.'] then out
  else if e = ['.', '.'] then
    match out with
    | [] => if rooted then [] else [e]
    | top :: below => if top = ['.', '.'] then e :: out else below
  else e :: out

/-- The elements joined by the separator. -/
def joinSep : List Str → Str
  | [] => []
  | [e] => e
  | e :: es => e ++ '/' :: joinSep es

/-- Go's `filepath.Clean` on Unix. -/
def filepathClean (path : Str) : Str :=
  if path = [] then ['.']
  else
    let rooted := path.head?.any isPathSeparator
    let out := (splitSep path).foldl (cleanStep rooted) []
    if rooted then '/' :: joinSep out.reverse
    else if out = [] then ['.'] else joinSep out.reverse

/-- Go's `filepath.Join` of two elements on Unix. -/
def filepathJoin (a b : Str) : Str :=
  if a = [] then (if b = [] then [] else filepathClean b)
  else if b = [] then filepathClean a
  else filepathClean (a ++ '/' :: b)

/-! ## The file system as an explicit state -/

/-- The three outcomes of `os.Stat` the program tells apart: success
(`err == nil`), an error with `os.IsNotExist(err)`, and any other error (name
too long, a regular file on the way, permission denied). -/
inductive StatResult where
  | ok
  | notExist
  | otherError
  deriving DecidableEq, Repr

/-- The existing regular files and directories, by path, the directories the
process may not search, and the longest name a path element may have, in
bytes (255 on the usual file systems). -/
structure FS where
  files : List Str
  dirs : List Str
  denied : List Str
  nameMax : Nat
  deriving DecidableEq

/-- Length of the UTF-8 encoding, in bytes. -/
def utf8Len (s : Str) : Nat := (s.map Char.utf8Size).sum

/-- Resolution of the directory elements of a path, from left to right; `done`
holds the elements already passed.  The first obstacle decides: an element
longer than `nameMax` (ENAMETOOLONG), a regular file in the place of a
directory (ENOTDIR), a missing directory (ENOENT), a directory that may not be
searched (EACCES).  The result `ok` means that every directory was passed. -/
def FS.walk (fs : FS) : List Str → List Str → StatResult
  | _, [] => .ok
  | done, e :: rest =>
      if joinSep (done ++ [e]) = [] then fs.walk (done ++ [e]) rest
      else if fs.nameMax < utf8Len e then .otherError
      else if joinSep (done ++ [e]) ∈ fs.files then .otherError
      else if joinSep (done ++ [e]) ∉ fs.dirs then .notExist
      else if joinSep (done ++ [e]) ∈ fs.denied then .otherError
      else fs.walk (done ++ [e]) rest

/-- The call `os.Stat(p)`: the directories are resolved first, then the last
element is looked up. -/
def FS.stat (fs : FS) (p : Str) : StatResult :=
  match fs.walk [] (splitSep p).dropLast with
  | .ok =>
      if fs.nameMax < utf8Len ((splitSep p).getLast?.getD []) then .otherError
      else if p ∈ fs.files ∨ p ∈ fs.dirs then .ok
      else .notExist
  | r => r

/-- The directories of `os.MkdirAll`, created from left to right where they
are missing; an error (`none`) for a regular file in the way, a name that is
too long, or a directory on the way that may not be searched. -/
def mkdirChain : List Str → List Str → FS → Option FS
  | _, [], fs => some fs
  | done, e :: rest, fs =>
      if joinSep (done ++ [e]) = [] then mkdirChain (done ++ [e]) rest fs
      else if joinSep (done ++ [e]) ∈ fs.dirs then
        if joinSep (done ++ [e]) ∈ fs.denied ∧ rest ≠ [] then none
        else mkdirChain (done ++ [e]) rest fs
      else if joinSep (done ++ [e]) ∈ fs.files ∨ fs.nameMax < utf8Len e then none
      else mkdirChain (done ++ [e]) rest { fs with dirs := joinSep (done ++ [e]) :: fs.dirs }

/-- The call `os.MkdirAll`. -/
def FS.mkdirAll (fs : FS) (p : Str) : Option FS := mkdirChain [] (splitSep p) fs

/-- A file can be put at the path: its directories resolve and its name is not
too long. -/
def FS.canCreate (fs : FS) (p : Str) : Bool :=
  decide (fs.walk [] (splitSep p).dropLast = .ok) &&
    !decide (fs.nameMax < utf8Len ((splitSep p).getLast?.getD []))

/-- The call `os.Rename`: an error (`none`) when the source is not an existing
file, the target cannot be created or is a directory; otherwise the file is at
the new path only. -/
def FS.rename (fs : FS) (src dst : Str) : Option FS :=
  if fs.stat src = .ok ∧ src ∈ fs.files ∧ fs.canCreate dst = true ∧ dst ∉ fs.dirs then
    some { fs with files := dst :: fs.files.filter (fun p => decide (p ≠ src) && decide (p ≠ dst)) }
  else none

/-! ## Collision resolution (lines 164-183) -/

/-- The text `fmt.Sprintf("%s (%d)%s", nameWithoutExt, counter, ext)`. -/
def suffixedName (nameWithoutExt : Str) (counter : Nat) (ext : Str) : Str :=
  nameWithoutExt ++ " (".toList ++ Nat.toDigits 10 counter ++ ')' :: ext

/-- The `for` loop of the collision branch, from the given counter on: it
breaks only when `os.Stat` fails with `os.IsNotExist(err)`, and goes on to the
next counter after a success and after any other error.  The result is `none`
when the fuel runs out before the loop breaks.  The counter, a Go `int`, is a
natural number here: a loop that breaks does so at a counter of at most the
number of existing paths plus one. -/
def collisionLoop (fs : FS) (artistFolder nameWithoutExt ext : Str) : Nat → Nat → Option Str
  | 0, _ => none
  | fuel + 1, counter =>
      let newPath := filepathJoin artistFolder (suffixedName nameWithoutExt counter ext)
      if fs.stat newPath = .notExist then some newPath
      else collisionLoop fs artistFolder nameWithoutExt ext fuel (counter + 1)

/-- The destination path computed for `fileName` inside `artistFolder`: the
plain path unless `os.Stat` succeeds on it (`err == nil`), else the result of
the loop.  The loop is given one more round than there are existing paths;
when it does not break within them it never breaks, whatever the number of
rounds, so `none` is a loop that does not return. -/
def newPathFor (fs : FS) (artistFolder fileName : Str) : Option Str :=
  let newPath := filepathJoin artistFolder fileName
  if fs.stat newPath = .ok then
    let ext := filepathExt fileName
    let nameWithoutExt := trimSuffix fileName ext
    collisionLoop fs artistFolder nameWithoutExt ext (fs.files.length + fs.dirs.length + 1) 1
  else some newPath

/-! ## The processing loop (lines 135-194) -/

/-- A file-system call that changes state, with its outcome. -/
inductive Event where
  | mkdirAll (path : Str) (ok : Bool)
  | rename (src dst : Str) (ok : Bool)
  deriving DecidableEq, Repr

/-- Whether the event is a move. -/
def Event.isRename : Event → Bool
  | .rename _ _ _ => true
  | .mkdirAll _ _ => false

/-- Whether the event is a move that succeeded. -/
def Event.isRenameOk : Event → Bool
  | .rename _ _ ok => ok
  | .mkdirAll _ _ => false

/-- One iteration of the processing loop: the new state, the calls issued, the
increment of `processedCount`, and whether the iteration came to its end
(`false` when the collision loop does not return). -/
structure Step where
  fs : FS
  events : List Event
  inc : Nat
  returned : Bool
  deriving DecidableEq

/-- The body of the processing loop for one file. -/
def processFile (folderPath : Str) (fs : FS) (filePath : Str) : Step :=
  let fileName := filepathBase filePath
  match classify fileName with
  | none => ⟨fs, [], 0, true⟩
  | some trimmed =>
      let artistName := cleanArtistName trimmed
      if artistName = [] then ⟨fs, [], 0, true⟩
      else
        let artistFolder := filepathJoin folderPath artistName
        match fs.mkdirAll artistFolder with
        | none => ⟨fs, [.mkdirAll artistFolder false], 0, true⟩
        | some fs1 =>
            match newPathFor fs1 artistFolder fileName with
            | none => ⟨fs1, [.mkdirAll artistFolder true], 0, false⟩
            | some newPath =>
                match fs1.rename filePath newPath with
                | none =>
                    ⟨fs1, [.mkdirAll artistFolder true, .rename filePath newPath false], 0, true⟩
                | some fs2 =>
                    ⟨fs2, [.mkdirAll artistFolder true, .rename filePath newPath true], 1, true⟩

/-- A run of the processing loop: the state reached, `processedCount`, the
calls issued for each file taken up, in order, and whether the loop came to its
end (`false` when it is caught in the collision loop of the last file taken
up, so that `sortFilesByArtist` does not return). -/
structure Run where
  fs : FS
  count : Nat
  log : List (List Event)
  finished : Bool
  deriving DecidableEq

/-- The loop over `filesToProcess`. -/
def sortLoop (folderPath : Str) : FS → List Str → Run
  | fs, [] => ⟨fs, 0, [], true⟩
  | fs, filePath :: more =>
      let step := processFile folderPath fs filePath
      if step.returned then
        let r := sortLoop folderPath step.fs more
        ⟨r.fs, step.inc + r.count, step.events :: r.log, r.finished⟩
      else ⟨step.fs, step.inc, [step.events], false⟩

/-! ## Root path intake in `main` (lines 26-40) -/

/-- A Go slice expression `s[lo:hi]`; `none` is the run-time panic for bounds
out of range.  For a text that starts and ends with an ASCII quote, cutting one
byte at each end is cutting one code point at each end. -/
def goSlice (s : Str) (lo hi : Int) : Option Str :=
  if 0 ≤ lo ∧ lo ≤ hi ∧ hi ≤ s.length then some ((s.take hi.toNat).drop lo.toNat) else none

/-- Outcome of the root path intake. -/
inductive Intake where
  | usage
  | panic
  | path (folderPath : Str)
  deriving DecidableEq, Repr

/-- Lines 26-40 of `main`: `TrimSpace`, the empty check, and the removal of
surrounding quotes. -/
def intake (input : Str) : Intake :=
  let folderPath := trimSpace input
  if folderPath = [] then .usage
  else if [dquote].isPrefixOf folderPath && [dquote].isSuffixOf folderPath then
    match goSlice folderPath 1 ((folderPath.length : Int) - 1) with
    | none => .panic
    | some p => .path p
  else .path folderPath

/-! ## A state with a file name of the maximal length -/

/-- A music file name of 255 bytes, `A - xxx...x.mp3`. -/
def longName : Str := "A - ".toList ++ List.replicate 247 'x' ++ ".mp3".toList

/-- The root `/m` holds two files named `longName`, in the folders `/m/x` and
`/m/y`; names are limited to 255 bytes. -/
def fsLongName : FS :=
  ⟨["/m/x/".toList ++ longName, "/m/y/".toList ++ longName],
    ["/m".toList, "/m/x".toList, "/m/y".toList], [], 255⟩

/-- The state after the first of the two files was moved to the artist folder `/m/A`. -/
def fsLongNameMoved : FS :=
  ⟨["/m/A/".toList ++ longName, "/m/y/".toList ++ longName],
    ["/m/A".toList, "/m".toList, "/m/x".toList, "/m/y".toList], [], 255⟩

/-! ## Declarative reading of a match -/

/-- The repetition counts a quantifier allows. -/
def Quant.admits : Quant → Nat → Prop
  | .one, k => k = 1
  | .star, _ => True
  | .plus, k => 1 ≤ k
  | .lazyPlus, k => 1 ≤ k

/-- The text `s` starts with consecutive segments, one per atom, each made of
characters of the atom's class and of an allowed length; `ks` lists the
lengths.  With `eol` nothing is left after the last segment. -/
def Decomp (eol : Bool) : List Atom → Str → List Nat → Prop
  | [], s, ks => ks = [] ∧ (eol = true → s = [])
  | a :: as, s, ks =>
      ∃ seg rest ks', s = seg ++ rest ∧ ks = seg.length :: ks' ∧ a.q.admits seg.length ∧
        (∀ c ∈ seg, a.cls c = true) ∧ Decomp eol as rest ks'

/-! ## Input shapes named by the specification -/

/-- An ASCII letter. -/
def asciiLetter (c : Char) : Bool :=
  (decide (65 ≤ c.toNat) && decide (c.toNat ≤ 90)) || (decide (97 ≤ c.toNat) && decide (c.toNat ≤ 122))

/-- An ASCII digit. -/
def asciiDigit (c : Char) : Bool := decide (48 ≤ c.toNat) && decide (c.toNat ≤ 57)

/-- An ASCII letter, a digit or the underscore. -/
def asciiWord (c : Char) : Bool := asciiLetter c || asciiDigit c || c = '_'

/-- An ASCII letter, a digit or the space. -/
def asciiAlnumSpace (c : Char) : Bool := asciiLetter c || asciiDigit c || c = ' '

/-- The characters other than `a`. -/
def differs (a c : Char) : Bool := decide (c ≠ a)

/-- The required shape of a file name, in the words of the specification: the
name contains a `-`, the text before the first `-` is not empty, and the text
after it contains exactly one `.`, with at least one character before that dot
and a non-empty run of ASCII letters, digits or `_` from the dot to the end. -/
def requiredShape (f : Str) : Bool :=
  match f.dropWhile (differs '-') with
  | [] => false
  | _ :: post =>
      let pre := f.takeWhile (differs '-')
      let beforeDot := post.takeWhile (differs '.')
      let afterDot := (post.dropWhile (differs '.')).tail
      !pre.isEmpty && decide (post.count '.' = 1) && !beforeDot.isEmpty
        && !afterDot.isEmpty && afterDot.all asciiWord

/-! ## What the processing loop is required to do for one file -/

/-- The source path of a move; `none` for another call. -/
def Event.source? : Event → Option Str
  | .rename src _ _ => some src
  | .mkdirAll _ _ => none

/-- The calls issued for one candidate file respect the specification: at most
one move, of that file, and only for a matched name with a non-empty sanitized
artist; no call at all for an unmatched name or an empty sanitized artist. -/
def CallsAllowed (filePath : Str) (evs : List Event) : Prop :=
  evs.countP Event.isRename ≤ 1 ∧
  (∀ e ∈ evs, e.isRename = true → e.source? = some filePath ∧
    ∃ a, classify (filepathBase filePath) = some a ∧ cleanArtistName a ≠ []) ∧
  ((classify (filepathBase filePath) = none ∨
      ∃ a, classify (filepathBase filePath) = some a ∧ cleanArtistName a = []) → evs = [])

/-! ## Lemmas on `strings.TrimSpace` and `strings.ReplaceAll` -/

theorem mem_of_mem_trimSpace {s : Str} {c : Char} (h : c ∈ trimSpace s) : c ∈ s := by
  unfold trimSpace at h
  exact (List.dropWhile_sublist _).subset ((List.rdropWhile_prefix _ _).subset h)

theorem replaceScan_single (a : Char) (new : Str) (c : Char) (t : Str) :
    replaceScan [a] new 0 (c :: t)
      = (if c = a then new else [c]) ++ replaceScan [a] new 0 t := by
  by_cases h : c = a
  · subst h
    simp [replaceScan, List.isPrefixOf]
  · have h2 : ¬ a = c := fun e => h e.symm
    simp [replaceScan, List.isPrefixOf, h, h2]

theorem mem_stringsReplaceAll_single {a : Char} {new s : Str} {x : Char}
    (h : x ∈ stringsReplaceAll s [a] new) : x ∈ new ∨ (x ∈ s ∧ x ≠ a) := by
  simp only [stringsReplaceAll, List.cons_ne_nil, if_false] at h
  induction s with
  | nil => simp [replaceScan] at h
  | cons c t ih =>
      rw [replaceScan_single] at h
      rcases List.mem_append.1 h with h1 | h1
      · by_cases hc : c = a
        · simp only [hc, if_true] at h1
          exact Or.inl h1
        · simp only [hc, if_false, List.mem_singleton] at h1
          subst h1
          exact Or.inr ⟨List.mem_cons_self _ _, hc⟩
      · rcases ih h1 with h2 | ⟨h2, h3⟩
        · exact Or.inl h2
        · exact Or.inr ⟨List.mem_cons_of_mem _ h2, h3⟩

theorem stringsReplaceAll_single_of_not_mem {a : Char} {new s : Str} (h : a ∉ s) :
    stringsReplaceAll s [a] new = s := by
  simp only [stringsReplaceAll, List.cons_ne_nil, if_false]
  induction s with
  | nil => simp [replaceScan]
  | cons c t ih =>
      rw [replaceScan_single]
      have hc : ¬ c = a := fun e => h (by simp [e])
      have ht : a ∉ t := fun e => h (List.mem_cons_of_mem _ e)
      simp [hc, ih ht]

/-- One replacement step keeps out the characters already removed and removes
one more, when the inserted text is free of all of them. -/
theorem replace_step (bad done : List Char) (a : Char) (new s : Str)
    (hnew : ∀ c ∈ bad, c ∉ new) (hs : ∀ c ∈ bad, c ∈ done → c ∉ s) :
    ∀ c ∈ bad, c ∈ a :: done → c ∉ stringsReplaceAll s [a] new := by
  intro c hc hmem hin
  rcases mem_stringsReplaceAll_single hin with h | ⟨h1, h2⟩
  · exact hnew c hc h
  · rcases List.mem_cons.1 hmem with h3 | h3
    · exact h2 h3
    · exact hs c hc h3 h1

/-- The nine characters that `cleanArtistName` replaces. -/
theorem illegal_removed (s : Str) :
    ∀ c ∈ [':', '/', backslash, '?', '*', dquote, '<', '>', '|'],
      c ∉ stringsReplaceAll (stringsReplaceAll (stringsReplaceAll (stringsReplaceAll
        (stringsReplaceAll (stringsReplaceAll (stringsReplaceAll (stringsReplaceAll
        (stringsReplaceAll s [':'] " -".toList) ['/'] " & ".toList) [backslash] " & ".toList)
        ['?'] []) ['*'] []) [dquote] [Char.ofNat 39]) ['<'] ['(']) ['>'] [')']) ['|'] ['-'] := by
  intro c hc
  have h0 : ∀ c ∈ [':', '/', backslash, '?', '*', dquote, '<', '>', '|'],
      c ∈ ([] : List Char) → c ∉ s := by
    intro c _ h
    cases h
  have h1 := replace_step _ _ ':' " -".toList _ (by decide) h0
  have h2 := replace_step _ _ '/' " & ".toList _ (by decide) h1
  have h3 := replace_step _ _ backslash " & ".toList _ (by decide) h2
  have h4 := replace_step _ _ '?' [] _ (by decide) h3
  have h5 := replace_step _ _ '*' [] _ (by decide) h4
  have h6 := replace_step _ _ dquote [Char.ofNat 39] _ (by decide) h5
  have h7 := replace_step _ _ '<' ['('] _ (by decide) h6
  have h8 := replace_step _ _ '>' [')'] _ (by decide) h7
  have h9 := replace_step _ _ '|' ['-'] _ (by decide) h8
  refine h9 c hc ?_
  revert c
  decide

/-! ## The backtracking matcher finds exactly the decompositions -/

theorem mem_candidates {q : Quant} {n k : Nat} :
    k ∈ q.candidates n ↔ q.admits k ∧ k ≤ n := by
  cases q <;> simp only [Quant.candidates, Quant.admits]
  · by_cases h : 1 ≤ n
    · simp only [h, if_true, List.mem_singleton]
      constructor
      · rintro rfl
        exact ⟨rfl, h⟩
      · exact fun e => e.1
    · simp only [h, if_false, List.not_mem_nil, false_iff]
      rintro ⟨rfl, h2⟩
      exact h h2
  · simp only [List.mem_reverse, List.mem_range, true_and]
    omega
  · simp only [List.mem_reverse, List.mem_map, List.mem_range]
    constructor
    · rintro ⟨a, ha, rfl⟩
      omega
    · rintro ⟨h1, h2⟩
      exact ⟨k - 1, by omega, by omega⟩
  · simp only [List.mem_map, List.mem_range]
    constructor
    · rintro ⟨a, ha, rfl⟩
      omega
    · rintro ⟨h1, h2⟩
      exact ⟨k - 1, by omega, by omega⟩

theorem runLen_take (p : Char → Bool) :
    ∀ (s : Str) (k : Nat), k ≤ runLen p s → k ≤ s.length ∧ ∀ c ∈ s.take k, p c = true := by
  intro s
  induction s with
  | nil =>
      intro k hk
      simp only [runLen, Nat.le_zero] at hk
      subst hk
      simp
  | cons a t ih =>
      intro k hk
      cases k with
      | zero => simp
      | succ k =>
          by_cases ha : p a = true
          · simp only [runLen, ha, if_true, Nat.add_le_add_iff_right] at hk
            obtain ⟨h1, h2⟩ := ih k hk
            refine ⟨by simpa using h1, ?_⟩
            intro c hc
            simp only [List.take_succ_cons, List.mem_cons] at hc
            rcases hc with rfl | hc
            · exact ha
            · exact h2 c hc
          · simp [runLen, ha] at hk

theorem length_le_runLen (p : Char → Bool) :
    ∀ (seg rest : Str), (∀ c ∈ seg, p c = true) → seg.length ≤ runLen p (seg ++ rest) := by
  intro seg
  induction seg with
  | nil => intro rest _; simp
  | cons a t ih =>
      intro rest h
      have ha : p a = true := h a (List.mem_cons_self _ _)
      have := ih rest (fun c hc => h c (List.mem_cons_of_mem _ hc))
      show (t.length + 1) ≤ runLen p (a :: (t ++ rest))
      simp only [runLen, ha, if_true]
      omega

theorem matchSeq_sound (eol : Bool) :
    ∀ (atoms : List Atom) (s : Str) (ks : List Nat),
      matchSeq eol atoms s = some ks → Decomp eol atoms s ks := by
  intro atoms
  induction atoms with
  | nil =>
      intro s ks h
      cases s with
      | nil =>
          simp only [matchSeq, List.isEmpty, Bool.not_true, Bool.and_false] at h
          simp only [Bool.false_eq_true, if_false, Option.some.injEq] at h
          exact ⟨h.symm, fun _ => rfl⟩
      | cons c t =>
          cases eol with
          | true => simp [matchSeq] at h
          | false =>
              simp only [matchSeq, Bool.false_and, Bool.false_eq_true, if_false,
                Option.some.injEq] at h
              exact ⟨h.symm, fun e => by cases e⟩
  | cons a as ih =>
      intro s ks h
      simp only [matchSeq] at h
      obtain ⟨k, hk, hf⟩ := List.exists_of_findSome?_eq_some h
      obtain ⟨hadm, hle⟩ := mem_candidates.1 hk
      obtain ⟨hlen, hcls⟩ := runLen_take a.cls s k hle
      cases hm : matchSeq eol as (s.drop k) with
      | none => simp [hm] at hf
      | some ks' =>
          simp only [hm, Option.map_some', Option.some.injEq] at hf
          have hl : (s.take k).length = k := by simp [hlen]
          refine ⟨s.take k, s.drop k, ks', (List.take_append_drop k s).symm, ?_, ?_, hcls,
            ih _ _ hm⟩
          · rw [hl]
            exact hf.symm
          · rw [hl]
            exact hadm

theorem matchSeq_complete (eol : Bool) :
    ∀ (atoms : List Atom) (s : Str) (ks : List Nat),
      Decomp eol atoms s ks → (matchSeq eol atoms s).isSome = true := by
  intro atoms
  induction atoms with
  | nil =>
      intro s ks h
      obtain ⟨_, h2⟩ := h
      cases eol with
      | true =>
          rw [h2 rfl]
          simp [matchSeq]
      | false => simp [matchSeq]
  | cons a as ih =>
      intro s ks h
      obtain ⟨seg, rest, ks', hs, _, hadm, hcls, hrest⟩ := h
      subst hs
      simp only [matchSeq, List.findSome?_isSome_iff]
      refine ⟨seg.length, mem_candidates.2 ⟨hadm, length_le_runLen _ _ _ hcls⟩, ?_⟩
      simp only [List.drop_left, Option.isSome_map']
      exact ih _ _ hrest

theorem search_sound (re : Regex) :
    ∀ (s : Str) (first : Bool) (i : Nat) (ks : List Nat), search re first s = some (i, ks) →
      ∃ pre rest, s = pre ++ rest ∧ pre.length = i ∧ Decomp re.eol re.atoms rest ks ∧
        (re.bol = true → first = true ∧ i = 0) := by
  intro s
  induction s with
  | nil =>
      intro first i ks h
      simp only [search, matchHere] at h
      by_cases hb : (re.bol && !first) = true
      · simp [hb] at h
      · simp only [hb, if_false, Option.map_eq_some', Prod.mk.injEq] at h
        obtain ⟨ks0, hm, hi, hk⟩ := h
        subst hi hk
        refine ⟨[], [], rfl, rfl, matchSeq_sound _ _ _ _ hm, ?_⟩
        intro hbol
        cases first <;> simp_all
  | cons c t ih =>
      intro first i ks h
      simp only [search] at h
      cases hm : matchHere re first (c :: t) with
      | some ks0 =>
          simp only [hm, Option.some.injEq, Prod.mk.injEq] at h
          obtain ⟨hi, hk⟩ := h
          subst hi hk
          simp only [matchHere] at hm
          by_cases hb : (re.bol && !first) = true
          · simp [hb] at hm
          · simp only [hb, if_false] at hm
            refine ⟨[], c :: t, rfl, rfl, matchSeq_sound _ _ _ _ hm, ?_⟩
            intro hbol
            cases first <;> simp_all
      | none =>
          simp only [hm, Option.map_eq_some', Prod.mk.injEq] at h
          obtain ⟨⟨j, ks1⟩, hs, hi, hk⟩ := h
          simp only at hi hk
          subst hi hk
          obtain ⟨pre, rest, ht, hl, hd, hbol⟩ := ih false j ks1 hs
          refine ⟨c :: pre, rest, by simp [ht], by simp [hl], hd, ?_⟩
          intro hb
          exact absurd (hbol hb).1 (by simp)

theorem search_complete (re : Regex) :
    ∀ (pre rest : Str) (first : Bool) (ks : List Nat), Decomp re.eol re.atoms rest ks →
      (re.bol = true → first = true ∧ pre = []) → (search re first (pre ++ rest)).isSome = true := by
  intro pre
  induction pre with
  | nil =>
      intro rest first ks hd hb
      have hm : (matchHere re first rest).isSome = true := by
        simp only [matchHere]
        by_cases hbol : re.bol = true
        · simp [hbol, (hb hbol).1, matchSeq_complete _ _ _ _ hd]
        · simp [hbol, matchSeq_complete _ _ _ _ hd]
      cases rest with
      | nil => simpa [search] using hm
      | cons c t =>
          obtain ⟨ks0, hk⟩ := Option.isSome_iff_exists.1 hm
          simp [search, hk]
  | cons c t ih =>
      intro rest first ks hd hb
      have hbol : re.bol = false := by
        cases h : re.bol with
        | false => rfl
        | true => exact absurd (hb h).2 (by simp)
      simp only [List.cons_append, search]
      cases hm : matchHere re first (c :: (t ++ rest)) with
      | some ks0 => simp
      | none =>
          simp only [Option.isSome_map']
          exact ih rest false ks hd (fun h => by simp [hbol] at h)

theorem replaceAllString_of_no_match (re : Regex) (s repl : Str)
    (h : matchString re s = false) : replaceAllString re s repl = s := by
  have h2 : search re true s = none := by
    cases hs : search re true s with
    | none => rfl
    | some r => simp [matchString, hs] at h
  simp [replaceAllString, replaceAllLoop, h2]

/-! ## More on `strings.TrimSpace` -/

theorem reSpace_isSpace {c : Char} (h : reSpace c = true) : isSpace c = true := by
  simp only [reSpace, Bool.or_eq_true, decide_eq_true_eq] at h
  rcases h with (((h | h) | h) | h) | h <;> subst h <;> decide

theorem dropWhile_head_not (p : Char → Bool) :
    ∀ (s : Str) (a : Char) (d : Str), s.dropWhile p = a :: d → p a = false := by
  intro s
  induction s with
  | nil => intro a d h; simp at h
  | cons c t ih =>
      intro a d h
      by_cases hc : p c = true
      · rw [List.dropWhile_cons_of_pos hc] at h
        exact ih a d h
      · rw [List.dropWhile_cons_of_neg hc] at h
        simp only [List.cons.injEq] at h
        rw [← h.1]
        simpa using hc

theorem dropWhile_trimSpace (s : Str) : (trimSpace s).dropWhile isSpace = trimSpace s := by
  unfold trimSpace
  obtain ⟨r, hr⟩ := List.rdropWhile_prefix isSpace (s.dropWhile isSpace)
  cases ht : List.rdropWhile isSpace (s.dropWhile isSpace) with
  | nil => rfl
  | cons a l =>
      rw [ht] at hr
      have ha : isSpace a = false := dropWhile_head_not isSpace s a (l ++ r) hr.symm
      rw [List.dropWhile_cons_of_neg (by simp [ha])]

theorem trimSpace_idem (s : Str) : trimSpace (trimSpace s) = trimSpace s := by
  have h := dropWhile_trimSpace s
  unfold trimSpace at h ⊢
  rw [h, List.rdropWhile_idempotent]

theorem rdropWhile_append_of_all (p : Char → Bool) (l : Str) :
    ∀ w : Str, (∀ c ∈ w, p c = true) → (l ++ w).rdropWhile p = l.rdropWhile p := by
  intro w
  induction w using List.reverseRecOn with
  | nil => intro _; simp
  | append_singleton w c ih =>
      intro h
      rw [← List.append_assoc, List.rdropWhile_concat_pos _ _ _ (h c (by simp))]
      exact ih (fun x hx => h x (by simp [hx]))

theorem trimSpace_append_of_all (l w : Str) (h : ∀ c ∈ w, isSpace c = true) :
    trimSpace (l ++ w) = trimSpace l := by
  unfold trimSpace
  by_cases hl : ∀ c ∈ l, isSpace c = true
  · have h1 : (l ++ w).dropWhile isSpace = [] := by
      rw [List.dropWhile_eq_nil_iff]
      intro c hc
      rcases List.mem_append.1 hc with hc | hc
      · exact hl c hc
      · exact h c hc
    have h2 : l.dropWhile isSpace = [] := by
      rw [List.dropWhile_eq_nil_iff]
      exact hl
    rw [h1, h2]
  · have h1 : (l ++ w).dropWhile isSpace = l.dropWhile isSpace ++ w := by
      rw [List.dropWhile_append]
      have : ¬ (List.dropWhile isSpace l).isEmpty = true := by
        rw [List.isEmpty_iff, List.dropWhile_eq_nil_iff]
        exact hl
      simp [this]
    rw [h1]
    exact rdropWhile_append_of_all _ _ _ h

/-! ## The sanitizer removes the illegal characters -/

theorem cleanArtistName_avoids (raw : Str) :
    ∀ c ∈ [':', '/', backslash, '?', '*', dquote, '<', '>', '|'],
      c ∉ cleanArtistName raw := by
  intro c hc hin
  unfold cleanArtistName at hin
  exact illegal_removed _ c hc (mem_of_mem_trimSpace hin)

/-- C2: for every input, the result of `cleanArtistName` contains none of the
nine characters `:` `/` `\` `?` `*` `"` `<` `>` `|`. -/
theorem cleanArtistName_no_illegal_char (raw : Str) :
    ∀ c ∈ [':', '/', backslash, '?', '*', dquote, '<', '>', '|'],
      c ∉ cleanArtistName raw :=
  cleanArtistName_avoids raw

/-- Witness of C2: no `/` is left in the clean name of `"AC/DC: Live?"`, which
is `"AC & DC - Live"`. -/
theorem cleanArtistName_no_illegal_char_witness :
    '/' ∈ [':', '/', backslash, '?', '*', dquote, '<', '>', '|'] ∧
      cleanArtistName "AC/DC: Live?".toList = "AC & DC - Live".toList ∧
      '/' ∉ cleanArtistName "AC/DC: Live?".toList :=
  ⟨by decide, by decide, cleanArtistName_no_illegal_char "AC/DC: Live?".toList '/' (by decide)⟩

/-! ## The sanitizer is idempotent on clean names -/

theorem foldl_replace_of_no_match (y : Str) :
    ∀ ps : List Regex, (∀ p ∈ ps, matchString p y = false) →
      ps.foldl (fun r p => replaceAllString p r []) y = y := by
  intro ps
  induction ps with
  | nil => intro _; rfl
  | cons p ps ih =>
      intro h
      rw [List.foldl_cons, replaceAllString_of_no_match p y [] (h p (List.mem_cons_self _ _))]
      exact ih (fun q hq => h q (List.mem_cons_of_mem _ hq))

theorem cleanArtistName_fixed (y : Str) (ht : trimSpace y = y)
    (hp : ∀ p ∈ patternsToRemove, matchString p y = false)
    (hc : ∀ c ∈ [':', '/', backslash, '?', '*', dquote, '<', '>', '|'], c ∉ y) :
    cleanArtistName y = y := by
  unfold cleanArtistName
  simp only [ht, foldl_replace_of_no_match y _ hp]
  rw [stringsReplaceAll_single_of_not_mem (hc _ (by simp)),
    stringsReplaceAll_single_of_not_mem (hc _ (by simp)),
    stringsReplaceAll_single_of_not_mem (hc _ (by simp)),
    stringsReplaceAll_single_of_not_mem (hc _ (by simp)),
    stringsReplaceAll_single_of_not_mem (hc _ (by simp)),
    stringsReplaceAll_single_of_not_mem (hc _ (by simp)),
    stringsReplaceAll_single_of_not_mem (hc _ (by simp)),
    stringsReplaceAll_single_of_not_mem (hc _ (by simp)),
    stringsReplaceAll_single_of_not_mem (hc _ (by simp)), ht]

theorem trimSpace_cleanArtistName (x : Str) :
    trimSpace (cleanArtistName x) = cleanArtistName x := by
  unfold cleanArtistName
  exact trimSpace_idem _

/-- C8: when `cleanArtistName x` matches none of the seven removal patterns,
cleaning it again changes nothing:
`cleanArtistName (cleanArtistName x) = cleanArtistName x`. -/
theorem cleanArtistName_idempotent (x : Str)
    (h : ∀ p ∈ patternsToRemove, matchString p (cleanArtistName x) = false) :
    cleanArtistName (cleanArtistName x) = cleanArtistName x :=
  cleanArtistName_fixed _ (trimSpace_cleanArtistName x) h (cleanArtistName_avoids x)

/-- Witness of C8 at `"Drake ft. Rihanna"`, whose clean name `"Drake"` matches no pattern. -/
theorem cleanArtistName_idempotent_witness :
    (∀ p ∈ patternsToRemove,
        matchString p (cleanArtistName "Drake ft. Rihanna".toList) = false) ∧
      cleanArtistName (cleanArtistName "Drake ft. Rihanna".toList)
        = cleanArtistName "Drake ft. Rihanna".toList :=
  ⟨by decide, cleanArtistName_idempotent _ (by decide)⟩

/-! ## The classifier -/

theorem search_false_of_bol (re : Regex) (hb : re.bol = true) :
    ∀ s : Str, search re false s = none := by
  intro s
  induction s with
  | nil => simp [search, matchHere, hb]
  | cons c t ih => simp [search, matchHere, hb, ih]

theorem search_true_of_bol (re : Regex) (hb : re.bol = true) (s : Str) :
    search re true s = (matchSeq re.eol re.atoms s).map (fun ks => (0, ks)) := by
  cases s with
  | nil => simp [search, matchHere]
  | cons c t =>
      simp only [search, matchHere, Bool.not_true, Bool.and_false, Bool.false_eq_true, if_false]
      cases hm : matchSeq re.eol re.atoms (c :: t) with
      | some ks => simp
      | none => simp [search_false_of_bol re hb]

theorem classify_eq (f : Str) :
    classify f
      = (matchSeq true pattern.atoms f).map (fun ks => trimSpace (f.take (ks.take 1).sum)) := by
  unfold classify findStringSubmatch
  rw [search_true_of_bol pattern rfl]
  have he : pattern.eol = true := rfl
  rw [he]
  cases matchSeq true pattern.atoms f with
  | none => rfl
  | some ks => simp [pattern]

theorem one_seg {seg : Str} {a : Char} (h1 : seg.length = 1)
    (h2 : ∀ c ∈ seg, reLit a c = true) : seg = [a] := by
  match seg, h1, h2 with
  | [c], _, h2 =>
      have := h2 c (List.mem_singleton_self c)
      simp only [reLit, decide_eq_true_eq] at this
      rw [this]

theorem ne_nil_of_one_le_length {seg : Str} (h : 1 ≤ seg.length) : seg ≠ [] := by
  intro e
  rw [e] at h
  simp at h

/-- The segments of a match of the file-name pattern. -/
theorem pattern_decomp {s : Str} {ks : List Nat} (h : Decomp true pattern.atoms s ks) :
    ∃ g w1 w2 t e, s = (g ++ w1) ++ '-' :: ((w2 ++ t) ++ '.' :: e) ∧
      ks.take 1 = [g.length] ∧ g ≠ [] ∧ (∀ c ∈ g, c ≠ '-') ∧ (∀ c ∈ w1, reSpace c = true) ∧
      (∀ c ∈ w2, reSpace c = true) ∧ t ≠ [] ∧ (∀ c ∈ t, c ≠ '.') ∧ e ≠ [] ∧
      (∀ c ∈ e, reWord c = true) := by
  simp only [pattern, Decomp, Quant.admits] at h
  obtain ⟨g, r1, k1, hs1, hk1, hg, hgc, w1, r2, k2, hs2, hk2, -, hw1, d1, r3, k3, hs3, hk3,
    hd1, hd1c, w2, r4, k4, hs4, hk4, -, hw2, t, r5, k5, hs5, hk5, ht, htc, d2, r6, k6, hs6,
    hk6, hd2, hd2c, e, r7, k7, hs7, hk7, he, hec, hk, hend⟩ := h
  have hr7 : r7 = [] := hend trivial
  rw [one_seg hd1 hd1c] at hs3
  rw [one_seg hd2 hd2c] at hs6
  subst hr7 hs7 hs6 hs5 hs4 hs3 hs2 hs1
  refine ⟨g, w1, w2, t, e, by simp, by simp [hk1], ne_nil_of_one_le_length hg, ?_, hw1, hw2,
    ne_nil_of_one_le_length ht, ?_, ne_nil_of_one_le_length he, hec⟩
  · intro c hc
    simpa [reNot] using hgc c hc
  · intro c hc
    simpa [reNot] using htc c hc

theorem length_pos_of_ne_nil' {seg : Str} (h : seg ≠ []) : 1 ≤ seg.length := by
  cases seg with
  | nil => exact absurd rfl h
  | cons a t => simp

/-- A text cut into the segments of the file-name pattern is matched. -/
theorem pattern_matches (g w1 w2 t e : Str) (hg : g ≠ []) (hgc : ∀ c ∈ g, c ≠ '-')
    (hw1 : ∀ c ∈ w1, reSpace c = true) (hw2 : ∀ c ∈ w2, reSpace c = true) (ht : t ≠ [])
    (htc : ∀ c ∈ t, c ≠ '.') (he : e ≠ []) (hec : ∀ c ∈ e, reWord c = true) :
    ∃ ks, matchSeq true pattern.atoms ((g ++ w1) ++ '-' :: ((w2 ++ t) ++ '.' :: e)) = some ks := by
  apply Option.isSome_iff_exists.1
  apply matchSeq_complete true _ _
    [g.length, w1.length, 1, w2.length, t.length, 1, e.length]
  simp only [pattern, Decomp, Quant.admits]
  refine ⟨g, w1 ++ '-' :: ((w2 ++ t) ++ '.' :: e), _, by simp, rfl, length_pos_of_ne_nil' hg,
    fun c hc => by simpa [reNot] using hgc c hc,
    w1, '-' :: ((w2 ++ t) ++ '.' :: e), _, rfl, rfl, trivial, hw1,
    ['-'], (w2 ++ t) ++ '.' :: e, _, rfl, rfl, rfl, by simp [reLit],
    w2, t ++ '.' :: e, _, by simp, rfl, trivial, hw2,
    t, '.' :: e, _, rfl, rfl, length_pos_of_ne_nil' ht,
    fun c hc => by simpa [reNot] using htc c hc,
    ['.'], e, _, rfl, rfl, rfl, by simp [reLit],
    e, [], _, by simp, rfl, length_pos_of_ne_nil' he, hec, rfl, fun _ => rfl⟩

/-- The text before the first occurrence of a character is determined. -/
theorem append_cons_inj_of_not_mem {a : Char} :
    ∀ {u u' v v' : Str}, a ∉ u → a ∉ u' → u ++ a :: v = u' ++ a :: v' → u = u' ∧ v = v' := by
  intro u
  induction u with
  | nil =>
      intro u' v v' _ hu' h
      cases u' with
      | nil => simpa using h
      | cons b w =>
          simp only [List.nil_append, List.cons_append, List.cons.injEq] at h
          exact absurd (by simp [h.1]) hu'
  | cons c t ih =>
      intro u' v v' hu hu' h
      cases u' with
      | nil =>
          simp only [List.nil_append, List.cons_append, List.cons.injEq] at h
          exact absurd (by simp [h.1]) hu
      | cons b w =>
          simp only [List.cons_append, List.cons.injEq] at h
          obtain ⟨h1, h2⟩ := ih (fun x => hu (List.mem_cons_of_mem _ x))
            (fun x => hu' (List.mem_cons_of_mem _ x)) h.2
          exact ⟨by rw [h.1, h1], h2⟩

theorem reSpace_ne_hyphen {c : Char} (h : reSpace c = true) : c ≠ '-' := by
  intro e
  subst e
  exact absurd h (by decide)

theorem reSpace_ne_dot {c : Char} (h : reSpace c = true) : c ≠ '.' := by
  intro e
  subst e
  exact absurd h (by decide)

theorem reWord_ne_dot {c : Char} (h : reWord c = true) : c ≠ '.' := by
  intro e
  subst e
  exact absurd h (by decide)

theorem asciiWord_eq_reWord (c : Char) : asciiWord c = reWord c := by
  have h0 : '0'.toNat = 48 := rfl
  have h9 : '9'.toNat = 57 := rfl
  have hA : 'A'.toNat = 65 := rfl
  have hZ : 'Z'.toNat = 90 := rfl
  have ha : 'a'.toNat = 97 := rfl
  have hz : 'z'.toNat = 122 := rfl
  simp only [asciiWord, asciiLetter, asciiDigit, reWord, reDigit, h0, h9, hA, hZ, ha, hz]
  cases decide (65 ≤ c.toNat) && decide (c.toNat ≤ 90) <;>
    cases decide (97 ≤ c.toNat) && decide (c.toNat ≤ 122) <;>
    cases decide (48 ≤ c.toNat) && decide (c.toNat ≤ 57) <;> simp

/-- C1: for a file name `A ++ " - " ++ T ++ "." ++ E` with `A` non-empty and
free of `-`, `T` non-empty and free of `.`, and `E` a non-empty run of ASCII
letters, digits or `_`, the classifier returns Matched with `A` trimmed. -/
theorem classify_artist_title (A T E : Str) (hA : A ≠ []) (hA' : '-' ∉ A) (hT : T ≠ [])
    (hT' : '.' ∉ T) (hE : E ≠ []) (hE' : ∀ c ∈ E, asciiWord c = true) :
    classify (A ++ " - ".toList ++ T ++ '.' :: E) = some (trimSpace A) := by
  have hshape : A ++ " - ".toList ++ T ++ '.' :: E
      = (A ++ [' ']) ++ '-' :: (([' '] ++ T) ++ '.' :: E) := by
    simp [String.toList]
  have hsp : ∀ c ∈ [' '], reSpace c = true := by decide
  obtain ⟨ks, hks⟩ := pattern_matches A [' '] [' '] T E hA
    (fun c hc e => hA' (e ▸ hc)) hsp hsp hT (fun c hc e => hT' (e ▸ hc)) hE
    (fun c hc => by rw [← asciiWord_eq_reWord]; exact hE' c hc)
  rw [classify_eq, hshape, hks, Option.map_some']
  obtain ⟨g, w1, w2, t, e, hs, hk, -, hgc, hw1, -⟩ := pattern_decomp (matchSeq_sound _ _ _ _ hks)
  have hA2 : '-' ∉ A ++ [' '] := by
    intro h
    rcases List.mem_append.1 h with h | h
    · exact hA' h
    · simp at h
  have hg2 : '-' ∉ g ++ w1 := by
    intro h
    rcases List.mem_append.1 h with h | h
    · exact hgc _ h rfl
    · exact reSpace_ne_hyphen (hw1 _ h) rfl
  obtain ⟨hpre, -⟩ := append_cons_inj_of_not_mem hA2 hg2 hs
  have htake : ((A ++ [' ']) ++ '-' :: (([' '] ++ T) ++ '.' :: E)).take (ks.take 1).sum = g := by
    rw [hk, hs]
    simp
  rw [htake]
  have h1 : trimSpace (g ++ w1) = trimSpace g :=
    trimSpace_append_of_all g w1 (fun c hc => reSpace_isSpace (hw1 c hc))
  have h2 : trimSpace (A ++ [' ']) = trimSpace A :=
    trimSpace_append_of_all A [' '] (by decide)
  rw [← h1, ← hpre, h2]

/-- Witness of C1: `"Metallica - Master of Puppets.mp3"` gives `"Metallica"`. -/
theorem classify_artist_title_witness :
    classify "Metallica - Master of Puppets.mp3".toList = some "Metallica".toList :=
  classify_artist_title "Metallica".toList "Master of Puppets".toList "mp3".toList
    (by decide) (by decide) (by decide) (by decide) (by decide) (by decide)

/-! ## The classifier matches exactly the required shape -/

theorem takeWhile_append_cons (p : Char → Bool) (u v : Str) (a : Char)
    (hu : ∀ c ∈ u, p c = true) (ha : p a = false) : (u ++ a :: v).takeWhile p = u := by
  rw [List.takeWhile_append_of_pos hu, List.takeWhile_cons_of_neg (by simp [ha])]
  simp

theorem dropWhile_append_cons (p : Char → Bool) (u v : Str) (a : Char)
    (hu : ∀ c ∈ u, p c = true) (ha : p a = false) : (u ++ a :: v).dropWhile p = a :: v := by
  rw [List.dropWhile_append_of_pos hu, List.dropWhile_cons_of_neg (by simp [ha])]

/-- The shape of the specification, as a decomposition of the name. -/
theorem requiredShape_iff (f : Str) :
    requiredShape f = true ↔
      ∃ g t e, f = g ++ '-' :: (t ++ '.' :: e) ∧ g ≠ [] ∧ '-' ∉ g ∧ t ≠ [] ∧ '.' ∉ t ∧
        e ≠ [] ∧ ∀ c ∈ e, reWord c = true := by
  constructor
  · intro h
    unfold requiredShape at h
    cases hd : f.dropWhile (differs '-') with
    | nil =>
        rw [hd] at h
        cases h
    | cons a post =>
        rw [hd] at h
        simp only [Bool.and_eq_true, Bool.not_eq_true', decide_eq_true_eq,
          List.all_eq_true] at h
        obtain ⟨⟨⟨⟨h1, -⟩, h3⟩, h4⟩, h5⟩ := h
        have ha : a = '-' := by
          simpa [differs] using dropWhile_head_not _ f a post hd
        cases hd2 : post.dropWhile (differs '.') with
        | nil =>
            rw [hd2] at h4
            cases h4
        | cons b e =>
            have hb : b = '.' := by
              simpa [differs] using dropWhile_head_not _ post b e hd2
            rw [hd2] at h4 h5
            simp only [List.tail_cons] at h4 h5
            refine ⟨f.takeWhile (differs '-'), post.takeWhile (differs '.'), e,
              ?_, ?_, ?_, ?_, ?_, ?_, ?_⟩
            · have e1 := List.takeWhile_append_dropWhile (differs '-') f
              have e2 := List.takeWhile_append_dropWhile (differs '.') post
              rw [hd, ha] at e1
              rw [hd2, hb] at e2
              rw [e2]
              exact e1.symm
            · intro e0
              rw [e0] at h1
              cases h1
            · intro hm
              simpa [differs] using List.mem_takeWhile_imp hm
            · intro e0
              rw [e0] at h3
              cases h3
            · intro hm
              simpa [differs] using List.mem_takeWhile_imp hm
            · intro e0
              rw [e0] at h4
              cases h4
            · intro c hc
              rw [← asciiWord_eq_reWord]
              exact h5 c hc
  · rintro ⟨g, t, e, rfl, hg, hgc, ht, htc, he, hec⟩
    have hg2 : ∀ c ∈ g, differs '-' c = true := by
      intro c hc
      simp only [differs, decide_eq_true_eq]
      exact fun e0 => hgc (e0 ▸ hc)
    have ht2 : ∀ c ∈ t, differs '.' c = true := by
      intro c hc
      simp only [differs, decide_eq_true_eq]
      exact fun e0 => htc (e0 ▸ hc)
    have hcount : (t ++ '.' :: e).count '.' = 1 := by
      rw [List.count_append, List.count_cons_self, List.count_eq_zero.2 htc,
        List.count_eq_zero.2 (fun hm => reWord_ne_dot (hec _ hm) rfl)]
    unfold requiredShape
    rw [dropWhile_append_cons _ g _ '-' hg2 (by decide)]
    simp only [takeWhile_append_cons _ g _ '-' hg2 (by decide),
      takeWhile_append_cons _ t _ '.' ht2 (by decide),
      dropWhile_append_cons _ t _ '.' ht2 (by decide), hcount, List.tail_cons]
    have e1 : g.isEmpty = false := by
      cases g with
      | nil => exact absurd rfl hg
      | cons _ _ => rfl
    have e2 : t.isEmpty = false := by
      cases t with
      | nil => exact absurd rfl ht
      | cons _ _ => rfl
    have e3 : e.isEmpty = false := by
      cases e with
      | nil => exact absurd rfl he
      | cons _ _ => rfl
    have e4 : e.all asciiWord = true := by
      rw [List.all_eq_true]
      intro c hc
      rw [asciiWord_eq_reWord]
      exact hec c hc
    rw [e1, e2, e3, e4]
    rfl

theorem classify_isSome_iff (f : Str) :
    (classify f).isSome = true ↔
      ∃ g t e, f = g ++ '-' :: (t ++ '.' :: e) ∧ g ≠ [] ∧ '-' ∉ g ∧ t ≠ [] ∧ '.' ∉ t ∧
        e ≠ [] ∧ ∀ c ∈ e, reWord c = true := by
  rw [classify_eq, Option.isSome_map']
  constructor
  · intro h
    obtain ⟨ks, hks⟩ := Option.isSome_iff_exists.1 h
    obtain ⟨g, w1, w2, t, e, hs, -, hg, hgc, hw1, hw2, ht, htc, he, hec⟩ :=
      pattern_decomp (matchSeq_sound _ _ _ _ hks)
    refine ⟨g ++ w1, w2 ++ t, e, hs, by simp [hg], ?_, by simp [ht], ?_, he, hec⟩
    · intro h
      rcases List.mem_append.1 h with h | h
      · exact hgc _ h rfl
      · exact reSpace_ne_hyphen (hw1 _ h) rfl
    · intro h
      rcases List.mem_append.1 h with h | h
      · exact reSpace_ne_dot (hw2 _ h) rfl
      · exact htc _ h rfl
  · rintro ⟨g, t, e, rfl, hg, hgc, ht, htc, he, hec⟩
    obtain ⟨ks, hks⟩ := pattern_matches g [] [] t e hg (fun c hc e0 => hgc (e0 ▸ hc))
      (by simp) (by simp) ht (fun c hc e0 => htc (e0 ▸ hc)) he hec
    simp only [List.append_nil, List.nil_append] at hks
    rw [hks]
    rfl

theorem classify_no_hyphen (f : Str) (a : Str) (h : classify f = some a) : '-' ∉ a := by
  rw [classify_eq] at h
  cases hm : matchSeq true pattern.atoms f with
  | none => simp [hm] at h
  | some ks =>
      obtain ⟨g, w1, w2, t, e, hs, hk, -, hgc, -⟩ := pattern_decomp (matchSeq_sound _ _ _ _ hm)
      simp only [hm, Option.map_some', Option.some.injEq] at h
      rw [hk, hs] at h
      simp only [List.sum_cons, List.sum_nil, Nat.add_zero, List.append_assoc,
        List.take_left'] at h
      intro hin
      rw [← h] at hin
      exact hgc _ (mem_of_mem_trimSpace hin) rfl

/-- C3: the classifier returns Matched exactly for the names of the required
shape (`requiredShape`); a name without `-` is Unmatched; a name whose part
after the first `-` holds two or more dots is Unmatched; and a Matched artist
never contains `-`. -/
theorem classify_matched_iff_shape (f : Str) :
    (classify f).isSome = requiredShape f ∧
      ('-' ∉ f → classify f = none) ∧
      (∀ pre post, f = pre ++ '-' :: post → '-' ∉ pre → 2 ≤ post.count '.' →
        classify f = none) ∧
      (∀ a, classify f = some a → '-' ∉ a) := by
  have hiff : (classify f).isSome = requiredShape f := by
    rw [Bool.eq_iff_iff, classify_isSome_iff, requiredShape_iff]
  refine ⟨hiff, ?_, ?_, classify_no_hyphen f⟩
  · intro hno
    have hs : requiredShape f = false := by
      unfold requiredShape
      have : f.dropWhile (differs '-') = [] := by
        rw [List.dropWhile_eq_nil_iff]
        intro c hc
        simp only [differs, decide_eq_true_eq]
        exact fun e0 => hno (e0 ▸ hc)
      rw [this]
    rw [hs] at hiff
    cases hc : classify f with
    | none => rfl
    | some a => simp [hc] at hiff
  · intro pre post hf hpre hcount
    have hs : requiredShape f = false := by
      unfold requiredShape
      rw [hf, dropWhile_append_cons _ pre post '-'
        (fun c hc => by simp only [differs, decide_eq_true_eq]; exact fun e0 => hpre (e0 ▸ hc))
        (by decide)]
      have hne : decide (post.count '.' = 1) = false := by
        rw [decide_eq_false_iff_not]
        omega
      simp only [hne, Bool.and_false, Bool.false_and]
    rw [hs] at hiff
    cases hc : classify f with
    | none => rfl
    | some a => simp [hc] at hiff

/-- Witness of C3: `"NoHyphenHere.mp3"` and `"Artist - Mr. X.mp3"` are Unmatched. -/
theorem classify_matched_iff_shape_witness :
    classify "NoHyphenHere.mp3".toList = none ∧ classify "Artist - Mr. X.mp3".toList = none :=
  ⟨(classify_matched_iff_shape "NoHyphenHere.mp3".toList).2.1 (by decide),
   (classify_matched_iff_shape "Artist - Mr. X.mp3".toList).2.2.1
     "Artist ".toList " Mr. X.mp3".toList (by decide) (by decide) (by decide)⟩

/-! ## Removal of a featuring or versus suffix -/

theorem decomp_sum (eol : Bool) :
    ∀ (atoms : List Atom) (s : Str) (ks : List Nat), Decomp eol atoms s ks →
      ks.sum ≤ s.length ∧ (eol = true → ks.sum = s.length) := by
  intro atoms
  induction atoms with
  | nil =>
      rintro s ks ⟨rfl, h⟩
      refine ⟨by simp, fun e => ?_⟩
      rw [h e]
      rfl
  | cons a as ih =>
      rintro s ks ⟨seg, rest, ks', rfl, rfl, -, -, hd⟩
      obtain ⟨h1, h2⟩ := ih rest ks' hd
      refine ⟨by simp only [List.sum_cons, List.length_append]; omega, fun e => ?_⟩
      have := h2 e
      simp only [List.sum_cons, List.length_append]
      omega

/-- A literal character of the pattern occurs in every matched text. -/
theorem decomp_lit_mem (eol : Bool) (c : Char) :
    ∀ (atoms : List Atom) (s : Str) (ks : List Nat), Decomp eol atoms s ks →
      (⟨reLit c, .one⟩ : Atom) ∈ atoms → c ∈ s := by
  intro atoms
  induction atoms with
  | nil => intro s ks _ h; cases h
  | cons a as ih =>
      rintro s ks ⟨seg, rest, ks', rfl, -, hadm, hcls, hd⟩ hmem
      rcases List.mem_cons.1 hmem with h | h
      · subst h
        rw [one_seg hadm hcls]
        simp
      · exact List.mem_append_right _ (ih rest ks' hd h)

theorem no_match_of_lit_not_mem (re : Regex) (c : Char)
    (hmem : (⟨reLit c, .one⟩ : Atom) ∈ re.atoms) (s : Str) (hc : c ∉ s) :
    matchString re s = false := by
  cases hs : search re true s with
  | none => simp [matchString, hs]
  | some r =>
      obtain ⟨i, ks⟩ := r
      obtain ⟨pre, rest, rfl, -, hd, -⟩ := search_sound re _ _ _ _ hs
      exact absurd (List.mem_append_right _ (decomp_lit_mem _ c _ _ _ hd hmem)) hc

theorem decomp_litAtoms (eol : Bool) (as : List Atom) :
    ∀ (w s : Str) (ks : List Nat), Decomp eol (litAtoms w ++ as) s ks →
      ∃ r ks', s = w ++ r ∧ Decomp eol as r ks' := by
  intro w
  induction w with
  | nil => intro s ks h; exact ⟨s, ks, rfl, h⟩
  | cons a w ih =>
      rintro s ks ⟨seg, rest, ks', rfl, -, hadm, hcls, hd⟩
      obtain ⟨r, ks2, rfl, hd2⟩ := ih rest ks' hd
      rw [one_seg hadm hcls]
      exact ⟨r, ks2, rfl, hd2⟩

theorem decomp_litAtoms_intro (eol : Bool) (as : List Atom) (r : Str) (ks' : List Nat)
    (hd : Decomp eol as r ks') :
    ∀ w : Str, ∃ ks, Decomp eol (litAtoms w ++ as) (w ++ r) ks := by
  intro w
  induction w with
  | nil => exact ⟨ks', hd⟩
  | cons a w ih =>
      obtain ⟨ks, hk⟩ := ih
      exact ⟨1 :: ks, [a], w ++ r, ks, rfl, rfl, rfl, by simp [reLit], hk⟩

/-- A match of a marker pattern: white space, the marker word, a dot. -/
theorem marker_decomp (w rest : Str) (ks : List Nat)
    (h : Decomp true (markerPattern w).atoms rest ks) :
    ∃ ws r, rest = (ws ++ w) ++ '.' :: r ∧ ws ≠ [] ∧ ∀ c ∈ ws, reSpace c = true := by
  obtain ⟨ws, r1, ks1, rfl, -, hadm, hws, hd⟩ := h
  obtain ⟨r2, ks2, rfl, hd2⟩ := decomp_litAtoms _ _ _ _ _ hd
  obtain ⟨d, r3, ks3, rfl, -, hadm3, hd3, -⟩ := hd2
  rw [one_seg hadm3 hd3]
  exact ⟨ws, r3, by simp, ne_nil_of_one_le_length hadm, hws⟩

/-- The text up to the only occurrence of a character is determined. -/
theorem append_cons_unique {a : Char} :
    ∀ {u u' v v' : Str}, a ∉ u → a ∉ v → u ++ a :: v = u' ++ a :: v' → u = u' ∧ v = v' := by
  intro u
  induction u with
  | nil =>
      intro u' v v' _ hv h
      cases u' with
      | nil => simpa using h
      | cons b w =>
          simp only [List.nil_append, List.cons_append, List.cons.injEq] at h
          exact absurd (by rw [h.2]; simp) hv
  | cons c t ih =>
      intro u' v v' hu hv h
      cases u' with
      | nil =>
          simp only [List.nil_append, List.cons_append, List.cons.injEq] at h
          exact absurd (by simp [h.1]) hu
      | cons b w =>
          simp only [List.cons_append, List.cons.injEq] at h
          obtain ⟨h1, h2⟩ := ih (fun x => hu (List.mem_cons_of_mem _ x)) hv h.2
          exact ⟨by rw [h.1, h1], h2⟩

/-- Two different marker words do not end the same text after a space. -/
theorem marker_mismatch (w mw : Str)
    (hw : w ∈ ["ft".toList, "feat".toList, "vs".toList])
    (hmw : mw ∈ ["ft".toList, "feat".toList, "vs".toList]) (hne : w ≠ mw) (P Q : Str) :
    P ++ w ≠ Q ++ ' ' :: mw := by
  intro h
  have h2 := congrArg List.reverse h
  simp only [List.mem_cons, List.mem_singleton, List.not_mem_nil, or_false] at hw hmw
  rcases hw with rfl | rfl | rfl <;> rcases hmw with rfl | rfl | rfl <;>
    first
    | exact hne rfl
    | (simp [String.toList] at h2)

theorem marker_no_match (w mw : Str)
    (hw : w ∈ ["ft".toList, "feat".toList, "vs".toList])
    (hmw : mw ∈ ["ft".toList, "feat".toList, "vs".toList]) (hne : w ≠ mw) (A v : Str)
    (hd1 : '.' ∉ A ++ ' ' :: mw) (hd2 : '.' ∉ v) :
    matchString (markerPattern w) ((A ++ ' ' :: mw) ++ '.' :: v) = false := by
  cases hs : search (markerPattern w) true ((A ++ ' ' :: mw) ++ '.' :: v) with
  | none =>
      unfold matchString
      rw [hs]
      rfl
  | some r =>
      obtain ⟨i, ks⟩ := r
      obtain ⟨pre, rest, hsplit, -, hd, -⟩ := search_sound _ _ _ _ _ hs
      obtain ⟨ws, r, rfl, -, -⟩ := marker_decomp w rest ks hd
      have e : (A ++ ' ' :: mw) ++ '.' :: v = ((pre ++ ws) ++ w) ++ '.' :: r := by
        rw [hsplit]
        simp
      exact absurd (append_cons_unique hd1 hd2 e).1.symm (marker_mismatch w mw hw hmw hne _ _)

theorem leadingNumber_no_match (u v : Str) (hd : '.' ∉ u) (hu : ∃ c ∈ u, reDigit c = false) :
    matchString leadingNumberPattern (u ++ '.' :: v) = false := by
  cases hs : search leadingNumberPattern true (u ++ '.' :: v) with
  | none => simp [matchString, hs]
  | some r =>
      obtain ⟨i, ks⟩ := r
      obtain ⟨pre, rest, hsplit, hlen, hdec, hb⟩ := search_sound _ _ _ _ _ hs
      have hi : i = 0 := (hb rfl).2
      rw [hi] at hlen
      have hpre : pre = [] := List.length_eq_zero.1 hlen
      subst hpre
      simp only [leadingNumberPattern, Decomp] at hdec
      obtain ⟨ds, r1, k1, hs1, -, -, hds, d, r2, k2, hs2, -, hd1, hd1c, -⟩ := hdec
      rw [one_seg hd1 hd1c] at hs2
      subst hs2 hs1
      have hds2 : '.' ∉ ds := fun h => absurd (hds _ h) (by decide)
      have e : u ++ '.' :: v = ds ++ '.' :: r2 := by simpa using hsplit
      obtain ⟨c, hc, hcd⟩ := hu
      rw [(append_cons_inj_of_not_mem hd hds2 e).1] at hc
      rw [hds c hc] at hcd
      cases hcd

theorem replaceAllLoop_nil (re : Regex) (hnil : search re false [] = none) (repl : Str)
    (fuel : Nat) (j : Bool) : replaceAllLoop re repl fuel false j [] = [] := by
  cases fuel with
  | zero => rfl
  | succ n => simp [replaceAllLoop, hnil]

/-- An end-anchored pattern with one non-empty match: everything from the start
of the match on is removed. -/
theorem replaceAllString_eol (re : Regex) (he : re.eol = true)
    (hnil : search re false [] = none) (s : Str) (i : Nat) (ks : List Nat)
    (h : search re true s = some (i, ks)) (hpos : ks.sum ≠ 0) :
    replaceAllString re s [] = s.take i := by
  obtain ⟨pre, rest, rfl, hlen, hd, -⟩ := search_sound _ _ _ _ _ h
  have hsum : ks.sum = rest.length := (decomp_sum _ _ _ _ hd).2 he
  have hdrop : (pre ++ rest).drop (i + ks.sum) = [] := by
    rw [List.drop_eq_nil_iff]
    simp only [List.length_append]
    omega
  unfold replaceAllString
  simp only [replaceAllLoop, h, hpos, if_false, hdrop, replaceAllLoop_nil re hnil]
  simp

theorem alnumSpace_not_mem (bad : Char) (hb : asciiAlnumSpace bad = false) (s : Str)
    (hs : ∀ c ∈ s, asciiAlnumSpace c = true) : bad ∉ s := by
  intro h
  rw [hs bad h] at hb
  cases hb

theorem alnumSpace_reSpace {c : Char} (h1 : asciiAlnumSpace c = true) (h2 : reSpace c = true) :
    c = ' ' := by
  simp only [reSpace, Bool.or_eq_true, decide_eq_true_eq] at h2
  rcases h2 with (((h | h) | h) | h) | h
  · subst h; exact absurd h1 (by decide)
  · subst h; exact absurd h1 (by decide)
  · subst h; exact absurd h1 (by decide)
  · subst h; exact absurd h1 (by decide)
  · exact h

theorem alnumSpace_not_isSpace {c : Char} (h1 : asciiAlnumSpace c = true) (h2 : c ≠ ' ') :
    isSpace c = false := by
  have h32 : c.toNat ≠ 32 := by
    intro e
    apply h2
    apply Char.ext
    apply UInt32.toNat.inj
    exact e
  simp only [asciiAlnumSpace, asciiLetter, asciiDigit, Bool.or_eq_true, Bool.and_eq_true,
    decide_eq_true_eq, h2, or_false] at h1
  rw [Bool.eq_false_iff]
  intro h
  simp only [isSpace, Bool.or_eq_true, Bool.and_eq_true, decide_eq_true_eq] at h
  omega

theorem trimSpace_eq_self (s : Str) (h1 : ∀ a ∈ s.head?, isSpace a = false)
    (h2 : ∀ b ∈ s.getLast?, isSpace b = false) : trimSpace s = s := by
  unfold trimSpace
  have e1 : s.dropWhile isSpace = s := by
    cases s with
    | nil => rfl
    | cons a t =>
        have := h1 a rfl
        rw [List.dropWhile_cons_of_neg (by simp [this])]
  rw [e1]
  rcases List.eq_nil_or_concat s with h | ⟨l, b, h⟩
  · rw [h]
    simp
  · subst h
    have := h2 b (by simp)
    rw [List.concat_eq_append, List.rdropWhile_concat_neg _ _ _ (by simp [this])]

theorem getLast?_of_concat_eq (A l : Str) (b : Char) (h : A = l ++ [b]) :
    A.getLast? = some b := by
  rw [h]
  simp

/-- The marker pattern of the word present in the text removes the suffix. -/
theorem marker_replace (mw A X : Str)
    (hAc : ∀ c ∈ A, asciiAlnumSpace c = true) (hAl : A.getLast? ≠ some ' ')
    (hd1 : '.' ∉ A ++ ' ' :: mw) (hXc : ∀ c ∈ X, asciiAlnumSpace c = true) :
    replaceAllString (markerPattern mw) ((A ++ ' ' :: mw) ++ '.' :: ' ' :: X) [] = A := by
  have hX : ∀ c ∈ X, reAny c = true := by
    intro c hc
    have := hXc c hc
    simp only [reAny, Bool.not_eq_true', decide_eq_false_iff_not]
    intro e
    subst e
    exact absurd this (by decide)
  have hd2 : '.' ∉ ' ' :: X := by
    intro h
    rcases List.mem_cons.1 h with h | h
    · cases h
    · exact absurd (hXc _ h) (by decide)
  have htail : Decomp true [⟨reLit '.', .one⟩, ⟨reSpace, .plus⟩, ⟨reAny, .star⟩]
      ('.' :: ' ' :: X) [1, 1, X.length] :=
    ⟨['.'], ' ' :: X, _, rfl, rfl, rfl, by simp [reLit],
      [' '], X, _, rfl, rfl, Nat.le_refl 1, by decide,
      X, [], _, by simp, rfl, trivial, hX, rfl, fun _ => rfl⟩
  obtain ⟨ks0, hk0⟩ := decomp_litAtoms_intro true _ _ _ htail mw
  have hdec : Decomp true (markerPattern mw).atoms (' ' :: (mw ++ '.' :: ' ' :: X))
      (1 :: ks0) :=
    ⟨[' '], mw ++ '.' :: ' ' :: X, ks0, rfl, rfl, Nat.le_refl 1, by decide, hk0⟩
  have hsome := search_complete (markerPattern mw) A _ true _ hdec (fun h => by cases h)
  obtain ⟨⟨i, ks⟩, hs⟩ := Option.isSome_iff_exists.1 hsome
  have hs' : search (markerPattern mw) true ((A ++ ' ' :: mw) ++ '.' :: ' ' :: X)
      = some (i, ks) := by
    rw [← hs]
    simp
  obtain ⟨pre, rest, hsplit, hlen, hd, -⟩ := search_sound _ _ _ _ _ hs'
  obtain ⟨ws, r, hrest, hws, hwsc⟩ := marker_decomp mw rest ks hd
  have e : (A ++ ' ' :: mw) ++ '.' :: ' ' :: X = ((pre ++ ws) ++ mw) ++ '.' :: r := by
    rw [hsplit, hrest]
    simp
  have e2 : (A ++ [' ']) ++ mw = (pre ++ ws) ++ mw := by
    rw [← (append_cons_unique hd1 hd2 e).1]
    simp
  have e3 : A ++ [' '] = pre ++ ws := List.append_cancel_right e2
  have hpre : pre = A := by
    rcases List.eq_nil_or_concat ws with h | ⟨ws0, b, h⟩
    · exact absurd h hws
    · rw [h, List.concat_eq_append, ← List.append_assoc] at e3
      have e4 : A = pre ++ ws0 := (List.append_inj' e3 rfl).1
      rcases List.eq_nil_or_concat ws0 with h0 | ⟨ws1, b1, h1⟩
      · rw [e4, h0]
        simp
      · exfalso
        rw [h1, List.concat_eq_append, ← List.append_assoc] at e4
        have hb1 : b1 ∈ A := by
          rw [e4]
          simp
        have hb1s : reSpace b1 = true := hwsc b1 (by rw [h, h1]; simp)
        have := alnumSpace_reSpace (hAc b1 hb1) hb1s
        rw [this] at e4
        exact hAl (getLast?_of_concat_eq _ _ _ e4)
  have hpos : ks.sum ≠ 0 := by
    have := (decomp_sum _ _ _ _ hd).2 rfl
    rw [this, hrest]
    cases ws with
    | nil => exact absurd rfl hws
    | cons _ _ => simp
  rw [replaceAllString_eol _ rfl (by cases mw <;> rfl) _ i ks hs' hpos, ← hlen, hpre]
  simp

theorem dot_mem_markerPattern (w : Str) :
    (⟨reLit '.', .one⟩ : Atom) ∈ (markerPattern w).atoms := by
  simp [markerPattern]

theorem replaceChars_of_alnumSpace (A : Str) (hAc : ∀ c ∈ A, asciiAlnumSpace c = true) :
    stringsReplaceAll (stringsReplaceAll (stringsReplaceAll (stringsReplaceAll
      (stringsReplaceAll (stringsReplaceAll (stringsReplaceAll (stringsReplaceAll
      (stringsReplaceAll A [':'] " -".toList) ['/'] " & ".toList) [backslash] " & ".toList)
      ['?'] []) ['*'] []) [dquote] [Char.ofNat 39]) ['<'] ['(']) ['>'] [')']) ['|'] ['-']
      = A := by
  rw [stringsReplaceAll_single_of_not_mem (alnumSpace_not_mem _ (by decide) A hAc),
    stringsReplaceAll_single_of_not_mem (alnumSpace_not_mem _ (by decide) A hAc),
    stringsReplaceAll_single_of_not_mem (alnumSpace_not_mem _ (by decide) A hAc),
    stringsReplaceAll_single_of_not_mem (alnumSpace_not_mem _ (by decide) A hAc),
    stringsReplaceAll_single_of_not_mem (alnumSpace_not_mem _ (by decide) A hAc),
    stringsReplaceAll_single_of_not_mem (alnumSpace_not_mem _ (by decide) A hAc),
    stringsReplaceAll_single_of_not_mem (alnumSpace_not_mem _ (by decide) A hAc),
    stringsReplaceAll_single_of_not_mem (alnumSpace_not_mem _ (by decide) A hAc),
    stringsReplaceAll_single_of_not_mem (alnumSpace_not_mem _ (by decide) A hAc)]

theorem trimSpace_of_alnumSpace (A : Str) (hAc : ∀ c ∈ A, asciiAlnumSpace c = true)
    (h1 : A.head? ≠ some ' ') (h2 : A.getLast? ≠ some ' ') : trimSpace A = A := by
  apply trimSpace_eq_self
  · intro a ha
    refine alnumSpace_not_isSpace (hAc a (List.mem_of_mem_head? ha)) ?_
    rintro rfl
    exact h1 ha
  · intro b hb
    refine alnumSpace_not_isSpace (hAc b (List.mem_of_mem_getLast? hb)) ?_
    rintro rfl
    exact h2 hb

/-- The pipeline of `cleanArtistName` on `A ++ " " ++ word ++ ". " ++ X`. -/
theorem cleanArtistName_marker_word (mw A X : Str)
    (hmw : mw ∈ ["ft".toList, "feat".toList, "vs".toList])
    (hA : A ≠ []) (hAc : ∀ c ∈ A, asciiAlnumSpace c = true)
    (hA1 : A.head? ≠ some ' ') (hA2 : A.getLast? ≠ some ' ')
    (hX : X ≠ []) (hXc : ∀ c ∈ X, asciiAlnumSpace c = true)
    (hX2 : X.getLast? ≠ some ' ') :
    cleanArtistName ((A ++ ' ' :: mw) ++ '.' :: ' ' :: X) = A := by
  have hmwc : ∀ c ∈ mw, asciiAlnumSpace c = true := by
    simp only [List.mem_cons, List.mem_singleton, List.not_mem_nil, or_false] at hmw
    rcases hmw with rfl | rfl | rfl <;> decide
  have hpre : ∀ c ∈ A ++ ' ' :: mw, asciiAlnumSpace c = true := by
    intro c hc
    rcases List.mem_append.1 hc with h | h
    · exact hAc c h
    · rcases List.mem_cons.1 h with h | h
      · rw [h]
        rfl
      · exact hmwc c h
  have hd1 : '.' ∉ A ++ ' ' :: mw := alnumSpace_not_mem _ (by decide) _ hpre
  have hdA : '.' ∉ A := alnumSpace_not_mem _ (by decide) _ hAc
  have hd2 : '.' ∉ ' ' :: X := by
    intro h
    rcases List.mem_cons.1 h with h | h
    · cases h
    · exact absurd (hXc _ h) (by decide)
  have hall : ∀ c ∈ (A ++ ' ' :: mw) ++ '.' :: ' ' :: X, asciiAlnumSpace c = true ∨ c = '.' := by
    intro c hc
    rcases List.mem_append.1 hc with h | h
    · exact Or.inl (hpre c h)
    · rcases List.mem_cons.1 h with h | h
      · exact Or.inr h
      · rcases List.mem_cons.1 h with h | h
        · rw [h]
          exact Or.inl rfl
        · exact Or.inl (hXc c h)
  have hbr : '[' ∉ (A ++ ' ' :: mw) ++ '.' :: ' ' :: X := by
    intro h
    rcases hall _ h with h | h
    · exact absurd h (by decide)
    · exact absurd h (by decide)
  have hpa : '(' ∉ (A ++ ' ' :: mw) ++ '.' :: ' ' :: X := by
    intro h
    rcases hall _ h with h | h
    · exact absurd h (by decide)
    · exact absurd h (by decide)
  have ht : trimSpace ((A ++ ' ' :: mw) ++ '.' :: ' ' :: X)
      = (A ++ ' ' :: mw) ++ '.' :: ' ' :: X := by
    apply trimSpace_eq_self
    · intro a ha
      cases A with
      | nil => exact absurd rfl hA
      | cons a0 A' =>
          simp only [List.cons_append, List.head?_cons, Option.mem_def, Option.some.injEq] at ha
          subst ha
          refine alnumSpace_not_isSpace (hAc _ (List.mem_cons_self _ _)) ?_
          rintro rfl
          exact hA1 rfl
    · intro b hb
      rcases List.eq_nil_or_concat X with h | ⟨X', b', h⟩
      · exact absurd h hX
      · have hl : ((A ++ ' ' :: mw) ++ '.' :: ' ' :: X).getLast? = some b' :=
          getLast?_of_concat_eq _ ((A ++ ' ' :: mw) ++ '.' :: ' ' :: X') _ (by rw [h]; simp)
        rw [hl] at hb
        simp only [Option.mem_def, Option.some.injEq] at hb
        subst hb
        refine alnumSpace_not_isSpace (hXc _ (by rw [h]; simp)) ?_
        rintro rfl
        apply hX2
        rw [h]
        simp
  have h1 := no_match_of_lit_not_mem leadingIndexPattern '['
    (by simp [leadingIndexPattern]) _ hbr
  have h2 := leadingNumber_no_match (A ++ ' ' :: mw) (' ' :: X) hd1 ⟨' ', by simp, by decide⟩
  have h3 := no_match_of_lit_not_mem trailingParenPattern '('
    (by simp [trailingParenPattern]) _ hpa
  have h4 := no_match_of_lit_not_mem trailingBracketPattern '['
    (by simp [trailingBracketPattern]) _ hbr
  have hrep := marker_replace mw A X hAc hA2 hd1 hXc
  have hno : ∀ w : Str, matchString (markerPattern w) A = false :=
    fun w => no_match_of_lit_not_mem _ '.' (dot_mem_markerPattern w) A hdA
  have hwrong : ∀ w ∈ ["ft".toList, "feat".toList, "vs".toList], w ≠ mw →
      matchString (markerPattern w) ((A ++ ' ' :: mw) ++ '.' :: ' ' :: X) = false :=
    fun w hw hne => marker_no_match w mw hw hmw hne A (' ' :: X) hd1 hd2
  have hfold : patternsToRemove.foldl (fun r p => replaceAllString p r [])
      ((A ++ ' ' :: mw) ++ '.' :: ' ' :: X) = A := by
    simp only [patternsToRemove, List.foldl_cons, List.foldl_nil]
    rw [replaceAllString_of_no_match _ _ _ h1, replaceAllString_of_no_match _ _ _ h2,
      replaceAllString_of_no_match _ _ _ h3, replaceAllString_of_no_match _ _ _ h4]
    simp only [List.mem_cons, List.mem_singleton, List.not_mem_nil, or_false] at hmw
    rcases hmw with rfl | rfl | rfl
    · rw [hrep, replaceAllString_of_no_match _ _ _ (hno _),
        replaceAllString_of_no_match _ _ _ (hno _)]
    · rw [replaceAllString_of_no_match _ _ _ (hwrong "ft".toList (by simp) (by decide)), hrep,
        replaceAllString_of_no_match _ _ _ (hno _)]
    · rw [replaceAllString_of_no_match _ _ _ (hwrong "ft".toList (by simp) (by decide)),
        replaceAllString_of_no_match _ _ _ (hwrong "feat".toList (by simp) (by decide)), hrep]
  unfold cleanArtistName
  simp only [ht, hfold, replaceChars_of_alnumSpace A hAc]
  exact trimSpace_of_alnumSpace A hAc hA1 hA2

/-- C5: for a marker `m` among `ft.`, `feat.`, `vs.` and non-empty `A`, `X` made
of ASCII letters, digits and spaces that neither start nor end with a space,
`cleanArtistName (A ++ " " ++ m ++ " " ++ X) = A`. -/
theorem cleanArtistName_strips_marker (m A X : Str)
    (hm : m ∈ ["ft.".toList, "feat.".toList, "vs.".toList])
    (hA : A ≠ []) (hAc : ∀ c ∈ A, asciiAlnumSpace c = true)
    (hA1 : A.head? ≠ some ' ') (hA2 : A.getLast? ≠ some ' ')
    (hX : X ≠ []) (hXc : ∀ c ∈ X, asciiAlnumSpace c = true)
    (_hX1 : X.head? ≠ some ' ') (hX2 : X.getLast? ≠ some ' ') :
    cleanArtistName (A ++ [' '] ++ m ++ [' '] ++ X) = A := by
  simp only [List.mem_cons, List.mem_singleton, List.not_mem_nil, or_false] at hm
  rcases hm with rfl | rfl | rfl
  · have h := cleanArtistName_marker_word "ft".toList A X (by simp) hA hAc hA1 hA2 hX hXc hX2
    have e : A ++ [' '] ++ "ft.".toList ++ [' '] ++ X
        = (A ++ ' ' :: "ft".toList) ++ '.' :: ' ' :: X := by
      simp [String.toList]
    rw [e]
    exact h
  · have h := cleanArtistName_marker_word "feat".toList A X (by simp) hA hAc hA1 hA2 hX hXc hX2
    have e : A ++ [' '] ++ "feat.".toList ++ [' '] ++ X
        = (A ++ ' ' :: "feat".toList) ++ '.' :: ' ' :: X := by
      simp [String.toList]
    rw [e]
    exact h
  · have h := cleanArtistName_marker_word "vs".toList A X (by simp) hA hAc hA1 hA2 hX hXc hX2
    have e : A ++ [' '] ++ "vs.".toList ++ [' '] ++ X
        = (A ++ ' ' :: "vs".toList) ++ '.' :: ' ' :: X := by
      simp [String.toList]
    rw [e]
    exact h

/-- Witness of C5: `cleanArtistName "Drake ft. Rihanna" = "Drake"`. -/
theorem cleanArtistName_strips_marker_witness :
    cleanArtistName "Drake ft. Rihanna".toList = "Drake".toList :=
  cleanArtistName_strips_marker "ft.".toList "Drake".toList "Rihanna".toList
    (by decide) (by decide) (by decide) (by decide) (by decide) (by decide) (by decide)
    (by decide) (by decide)

/-! ## Decimal formatting is injective -/

theorem digitChar_val : ∀ k, k < 10 → (Nat.digitChar k).toNat - 48 = k := by decide

theorem digitChar_not_sep : ∀ k, k < 10 → isPathSeparator (Nat.digitChar k) = false := by
  decide

theorem decode_toDigitsCore :
    ∀ (fuel n : Nat) (acc : Str), n < fuel →
      (Nat.toDigitsCore 10 fuel n acc).foldl (fun a c => 10 * a + (c.toNat - 48)) 0
        = acc.foldl (fun a c => 10 * a + (c.toNat - 48)) n := by
  intro fuel
  induction fuel with
  | zero => intro n acc h; omega
  | succ fuel ih =>
      intro n acc h
      simp only [Nat.toDigitsCore]
      by_cases h0 : n / 10 = 0
      · simp only [h0, if_true, List.foldl_cons, Nat.mul_zero, Nat.zero_add]
        rw [digitChar_val _ (Nat.mod_lt _ (by decide))]
        congr 1
        omega
      · simp only [h0, if_false]
        rw [ih (n / 10) _ (by omega), List.foldl_cons,
          digitChar_val _ (Nat.mod_lt _ (by decide))]
        congr 1
        omega

theorem toDigits_injective {n m : Nat} (h : Nat.toDigits 10 n = Nat.toDigits 10 m) : n = m := by
  have hn := decode_toDigitsCore (n + 1) n [] (Nat.lt_succ_self n)
  have hm := decode_toDigitsCore (m + 1) m [] (Nat.lt_succ_self m)
  simp only [List.foldl_nil] at hn hm
  unfold Nat.toDigits at h
  rw [← hn, ← hm, h]

theorem toDigitsCore_not_sep :
    ∀ (fuel n : Nat) (acc : Str), (∀ c ∈ acc, isPathSeparator c = false) →
      ∀ c ∈ Nat.toDigitsCore 10 fuel n acc, isPathSeparator c = false := by
  intro fuel
  induction fuel with
  | zero => intro n acc h; exact h
  | succ fuel ih =>
      intro n acc h
      have hacc : ∀ c ∈ Nat.digitChar (n % 10) :: acc, isPathSeparator c = false := by
        intro c hc
        rcases List.mem_cons.1 hc with hc | hc
        · rw [hc]
          exact digitChar_not_sep _ (Nat.mod_lt _ (by decide))
        · exact h c hc
      simp only [Nat.toDigitsCore]
      by_cases h0 : n / 10 = 0
      · simp only [h0, if_true]
        exact hacc
      · simp only [h0, if_false]
        exact ih _ _ hacc

/-! ## `filepath.Ext` and `strings.TrimSuffix` -/

theorem extScan_suffix : ∀ (rev acc : Str), extScan rev acc <:+ rev.reverse ++ acc := by
  intro rev
  induction rev with
  | nil => intro acc; exact List.nil_suffix
  | cons c rev ih =>
      intro acc
      simp only [extScan]
      by_cases hs : isPathSeparator c = true
      · simp only [hs, if_true]
        exact List.nil_suffix
      · simp only [hs, if_false]
        by_cases hd : c = '.'
        · simp only [hd, if_true, List.reverse_cons, List.append_assoc, List.singleton_append]
          exact List.suffix_append _ _
        · simp only [hd, if_false, List.reverse_cons, List.append_assoc, List.singleton_append]
          exact ih (c :: acc)

theorem extScan_not_sep :
    ∀ (rev acc : Str), (∀ c ∈ acc, isPathSeparator c = false) →
      ∀ c ∈ extScan rev acc, isPathSeparator c = false := by
  intro rev
  induction rev with
  | nil => intro acc _ c hc; cases hc
  | cons a rev ih =>
      intro acc h
      simp only [extScan]
      by_cases hs : isPathSeparator a = true
      · simp only [hs, if_true]
        intro c hc
        cases hc
      · have hacc : ∀ c ∈ a :: acc, isPathSeparator c = false := by
          intro c hc
          rcases List.mem_cons.1 hc with hc | hc
          · rw [hc]
            simpa using hs
          · exact h c hc
        simp only [hs, if_false]
        by_cases hd : a = '.'
        · simp only [hd, if_true]
          rw [hd] at hacc
          exact hacc
        · simp only [hd, if_false]
          exact ih _ hacc

theorem filepathExt_suffix (f : Str) : filepathExt f <:+ f := by
  have := extScan_suffix f.reverse []
  simpa [filepathExt] using this

theorem filepathExt_not_sep (f : Str) : ∀ c ∈ filepathExt f, isPathSeparator c = false :=
  extScan_not_sep f.reverse [] (fun _ h => by cases h)

theorem trimSuffix_append_ext (f : Str) : trimSuffix f (filepathExt f) ++ filepathExt f = f := by
  have h := filepathExt_suffix f
  unfold trimSuffix
  rw [if_pos (List.isSuffixOf_iff_suffix.2 h)]
  exact List.suffix_iff_eq_append.1 h

/-! ## `filepath.Join` keeps a final proper element -/

theorem splitSep_of_no_sep :
    ∀ Y : Str, (∀ c ∈ Y, isPathSeparator c = false) → splitSep Y = [Y] := by
  intro Y
  induction Y with
  | nil => intro _; rfl
  | cons c Y ih =>
      intro h
      have hc : isPathSeparator c = false := h c (List.mem_cons_self _ _)
      simp only [splitSep, hc, Bool.false_eq_true, if_false,
        ih (fun x hx => h x (List.mem_cons_of_mem _ hx))]

theorem splitSep_append (Q : Str) :
    ∃ init last, splitSep Q = init ++ [last] ∧
      ∀ Y : Str, (∀ c ∈ Y, isPathSeparator c = false) →
        splitSep (Q ++ Y) = init ++ [last ++ Y] := by
  induction Q with
  | nil => exact ⟨[], [], rfl, fun Y hY => by simpa using splitSep_of_no_sep Y hY⟩
  | cons c Q ih =>
      obtain ⟨init, last, h1, h2⟩ := ih
      by_cases hc : isPathSeparator c = true
      · refine ⟨[] :: init, last, by simp [splitSep, hc, h1], fun Y hY => ?_⟩
        simp [splitSep, hc, h2 Y hY]
      · cases init with
        | nil =>
            refine ⟨[], c :: last, by simp [splitSep, hc, h1], fun Y hY => ?_⟩
            simp [splitSep, hc, h2 Y hY]
        | cons a init =>
            refine ⟨(c :: a) :: init, last, by simp [splitSep, hc, h1], fun Y hY => ?_⟩
            simp [splitSep, hc, h2 Y hY]

theorem joinSep_cons_cons (a b : Str) (t : List Str) :
    joinSep (a :: b :: t) = a ++ '/' :: joinSep (b :: t) := rfl

theorem joinSep_concat (e : Str) :
    ∀ l : List Str,
      joinSep (l ++ [e]) = (if l = [] then [] else joinSep l ++ ['/']) ++ e := by
  intro l
  induction l with
  | nil => simp [joinSep]
  | cons a l ih =>
      cases l with
      | nil => simp [joinSep]
      | cons b t =>
          rw [List.cons_append, List.cons_append, joinSep_cons_cons, ← List.cons_append, ih,
            joinSep_cons_cons]
          simp

theorem cleanStep_proper (rooted : Bool) (out : List Str) (e : Str) (h : 3 ≤ e.length) :
    cleanStep rooted out e = e :: out := by
  have h1 : e ≠ [] := by
    intro x
    rw [x] at h
    simp at h
  have h2 : e ≠ ['.'] := by
    intro x
    rw [x] at h
    simp at h
  have h3 : e ≠ ['.', '.'] := by
    intro x
    rw [x] at h
    simp at h
  simp [cleanStep, h1, h2, h3]

theorem filepathClean_append (Q : Str) :
    ∃ R : Str, ∀ Y : Str, (∀ c ∈ Y, isPathSeparator c = false) → 3 ≤ Y.length →
      filepathClean (Q ++ Y) = R ++ Y := by
  obtain ⟨init, last, -, hsplit⟩ := splitSep_append Q
  refine ⟨(if Q.head?.any isPathSeparator = true then ['/'] else []) ++
    (if (init.foldl (cleanStep (Q.head?.any isPathSeparator)) []).reverse = [] then []
      else joinSep (init.foldl (cleanStep (Q.head?.any isPathSeparator)) []).reverse ++ ['/'])
    ++ last, fun Y hY hlen => ?_⟩
  have hne : Q ++ Y ≠ [] := by
    intro x
    have := congrArg List.length x
    simp only [List.length_append, List.length_nil] at this
    omega
  have hroot : (Q ++ Y).head?.any isPathSeparator = Q.head?.any isPathSeparator := by
    cases Q with
    | cons a Q => rfl
    | nil =>
        cases Y with
        | nil => simp at hlen
        | cons y Y => simp [hY y (List.mem_cons_self _ _)]
  simp only [filepathClean, hne, if_false, hroot, hsplit Y hY, List.foldl_append,
    List.foldl_cons, List.foldl_nil]
  rw [cleanStep_proper _ _ _ (by simp only [List.length_append]; omega)]
  simp only [List.reverse_cons, joinSep_concat]
  by_cases hr : Q.head?.any isPathSeparator = true
  · simp [hr]
  · simp [hr]

theorem filepathJoin_append (d stem : Str) :
    ∃ R : Str, ∀ Y : Str, (∀ c ∈ Y, isPathSeparator c = false) → 3 ≤ Y.length →
      filepathJoin d (stem ++ Y) = R ++ Y := by
  by_cases hd : d = []
  · obtain ⟨R, hR⟩ := filepathClean_append stem
    refine ⟨R, fun Y hY hlen => ?_⟩
    have hne : stem ++ Y ≠ [] := by
      intro x
      have := congrArg List.length x
      simp only [List.length_append, List.length_nil] at this
      omega
    simp only [filepathJoin, hd, if_true, hne, if_false]
    exact hR Y hY hlen
  · obtain ⟨R, hR⟩ := filepathClean_append (d ++ '/' :: stem)
    refine ⟨R, fun Y hY hlen => ?_⟩
    have hne : stem ++ Y ≠ [] := by
      intro x
      have := congrArg List.length x
      simp only [List.length_append, List.length_nil] at this
      omega
    simp only [filepathJoin, hd, if_false, hne]
    rw [← hR Y hY hlen]
    simp

/-- The candidate paths of the collision loop are pairwise different. -/
theorem candidate_injective (d stem f : Str) {n m : Nat}
    (h : filepathJoin d (suffixedName stem n (filepathExt f))
      = filepathJoin d (suffixedName stem m (filepathExt f))) : n = m := by
  obtain ⟨R, hR⟩ := filepathJoin_append d stem
  have hY : ∀ k : Nat, (∀ c ∈ " (".toList ++ Nat.toDigits 10 k ++ ')' :: filepathExt f,
      isPathSeparator c = false) ∧
      3 ≤ (" (".toList ++ Nat.toDigits 10 k ++ ')' :: filepathExt f).length := by
    intro k
    constructor
    · intro c hc
      rcases List.mem_append.1 hc with hc | hc
      · rcases List.mem_append.1 hc with hc | hc
        · have hp : ∀ x ∈ " (".toList, isPathSeparator x = false := by decide
          exact hp c hc
        · exact toDigitsCore_not_sep _ _ [] (fun _ x => by cases x) c hc
      · rcases List.mem_cons.1 hc with hc | hc
        · rw [hc]
          rfl
        · exact filepathExt_not_sep f c hc
    · simp only [List.length_append, List.length_cons]
      have : (" (".toList).length = 2 := rfl
      omega
  have e : ∀ k : Nat, suffixedName stem k (filepathExt f)
      = stem ++ (" (".toList ++ Nat.toDigits 10 k ++ ')' :: filepathExt f) := by
    intro k
    simp [suffixedName]
  rw [e n, e m, hR _ (hY n).1 (hY n).2, hR _ (hY m).1 (hY m).2] at h
  have h2 := List.append_cancel_left h
  rw [List.append_assoc, List.append_assoc] at h2
  have h3 := List.append_cancel_left h2
  exact toDigits_injective (List.append_cancel_right h3)

/-! ## Length of the decimal text -/

theorem toDigitsCore_eq_digits :
    ∀ (fuel n : Nat) (acc : Str), n < fuel → 0 < n →
      Nat.toDigitsCore 10 fuel n acc
        = (Nat.digits 10 n).reverse.map Nat.digitChar ++ acc := by
  intro fuel
  induction fuel with
  | zero => intro n acc h; omega
  | succ fuel ih =>
      intro n acc h hpos
      simp only [Nat.toDigitsCore]
      by_cases h0 : n / 10 = 0
      · have hlt : n < 10 := by omega
        have hmod : n % 10 = n := Nat.mod_eq_of_lt hlt
        simp [h0, Nat.digits_of_lt 10 n (by omega) hlt, hmod]
      · simp only [h0, if_false]
        rw [ih (n / 10) _ (by omega) (by omega), Nat.digits_def' (by decide) hpos]
        simp

theorem toDigits_length_mono {n m : Nat} (hn : 1 ≤ n) (h : n ≤ m) :
    (Nat.toDigits 10 n).length ≤ (Nat.toDigits 10 m).length := by
  unfold Nat.toDigits
  rw [toDigitsCore_eq_digits _ _ _ (Nat.lt_succ_self n) (by omega),
    toDigitsCore_eq_digits _ _ _ (Nat.lt_succ_self m) (by omega)]
  simpa using Nat.le_digits_len_le 10 n m h

theorem digitChar_utf8Size : ∀ k, k < 10 → (Nat.digitChar k).utf8Size = 1 := by decide

theorem utf8Len_append (a b : Str) : utf8Len (a ++ b) = utf8Len a + utf8Len b := by
  simp [utf8Len]

theorem utf8Len_cons (c : Char) (b : Str) : utf8Len (c :: b) = c.utf8Size + utf8Len b := by
  simp [utf8Len]

theorem utf8Len_toDigits (n : Nat) (hn : 1 ≤ n) :
    utf8Len (Nat.toDigits 10 n) = (Nat.toDigits 10 n).length := by
  unfold Nat.toDigits
  rw [toDigitsCore_eq_digits _ _ _ (Nat.lt_succ_self n) (by omega)]
  simp only [List.append_nil, List.length_map, List.length_reverse]
  have hlt : ∀ k ∈ (Nat.digits 10 n).reverse, k < 10 := by
    intro k hk
    exact Nat.digits_lt_base (by decide) (List.mem_reverse.1 hk)
  rw [← List.length_reverse]
  generalize (Nat.digits 10 n).reverse = ds at hlt
  induction ds with
  | nil => rfl
  | cons k ds ih =>
      rw [List.map_cons, utf8Len_cons, digitChar_utf8Size k (hlt k (List.mem_cons_self _ _)),
        ih (fun x hx => hlt x (List.mem_cons_of_mem _ hx))]
      simp only [List.length_cons]
      omega

/-! ## The candidate paths of the collision loop -/

theorem suffixedName_eq (stem ext : Str) (n : Nat) :
    suffixedName stem n ext = stem ++ (" (".toList ++ Nat.toDigits 10 n ++ ')' :: ext) := by
  simp [suffixedName]

theorem suffix_not_sep (f : Str) (n : Nat) :
    ∀ c ∈ " (".toList ++ Nat.toDigits 10 n ++ ')' :: filepathExt f,
      isPathSeparator c = false := by
  intro c hc
  rcases List.mem_append.1 hc with hc | hc
  · rcases List.mem_append.1 hc with hc | hc
    · have hp : ∀ x ∈ " (".toList, isPathSeparator x = false := by decide
      exact hp c hc
    · exact toDigitsCore_not_sep _ _ [] (fun _ x => by cases x) c hc
  · rcases List.mem_cons.1 hc with hc | hc
    · rw [hc]
      rfl
    · exact filepathExt_not_sep f c hc

theorem suffix_length (ext : Str) (n : Nat) :
    3 ≤ (" (".toList ++ Nat.toDigits 10 n ++ ')' :: ext).length := by
  simp only [List.length_append, List.length_cons]
  have : (" (".toList).length = 2 := rfl
  omega

theorem suffix_utf8Len_mono (last ext : Str) {n m : Nat} (hn : 1 ≤ n) (h : n ≤ m) :
    utf8Len (last ++ (" (".toList ++ Nat.toDigits 10 n ++ ')' :: ext))
      ≤ utf8Len (last ++ (" (".toList ++ Nat.toDigits 10 m ++ ')' :: ext)) := by
  simp only [utf8Len_append, utf8Len_cons, utf8Len_toDigits n hn,
    utf8Len_toDigits m (by omega)]
  have := toDigits_length_mono hn h
  omega

/-- The outcome of `os.Stat` on the candidates: the directories are the same
for all of them, and only the length of the last element and the presence of
the path depend on the counter. -/
theorem stat_candidate (fs : FS) (d stem f : Str) :
    ∃ (W : StatResult) (last : Str), ∀ n : Nat,
      fs.stat (filepathJoin d (suffixedName stem n (filepathExt f)))
        = match W with
          | .ok =>
              if fs.nameMax
                  < utf8Len (last ++ (" (".toList ++ Nat.toDigits 10 n ++ ')' :: filepathExt f))
              then .otherError
              else if filepathJoin d (suffixedName stem n (filepathExt f)) ∈ fs.files ∨
                  filepathJoin d (suffixedName stem n (filepathExt f)) ∈ fs.dirs then .ok
              else .notExist
          | r => r := by
  obtain ⟨R, hR⟩ := filepathJoin_append d stem
  obtain ⟨init, last, -, hsplit⟩ := splitSep_append R
  refine ⟨fs.walk [] init, last, fun n => ?_⟩
  have hj : filepathJoin d (suffixedName stem n (filepathExt f))
      = R ++ (" (".toList ++ Nat.toDigits 10 n ++ ')' :: filepathExt f) := by
    rw [suffixedName_eq]
    exact hR _ (suffix_not_sep f n) (suffix_length _ n)
  have hs := hsplit _ (suffix_not_sep f n)
  rw [← hj] at hs
  unfold FS.stat
  rw [hs, List.dropLast_concat, List.getLast?_concat]
  cases fs.walk [] init <;> rfl

/-! ## Collision resolution -/

theorem collisionLoop_some (fs : FS) (d stem ext : Str) :
    ∀ (fuel c : Nat) (p : Str), collisionLoop fs d stem ext fuel c = some p →
      ∃ n, c ≤ n ∧ n < c + fuel ∧ p = filepathJoin d (suffixedName stem n ext) ∧
        fs.stat p = .notExist ∧
        ∀ m, c ≤ m → m < n → fs.stat (filepathJoin d (suffixedName stem m ext)) ≠ .notExist := by
  intro fuel
  induction fuel with
  | zero => intro c p h; cases h
  | succ fuel ih =>
      intro c p h
      simp only [collisionLoop] at h
      by_cases hs : fs.stat (filepathJoin d (suffixedName stem c ext)) = .notExist
      · simp only [hs, if_true, Option.some.injEq] at h
        subst h
        exact ⟨c, Nat.le_refl c, by omega, rfl, hs, fun m h1 h2 => by omega⟩
      · simp only [hs, if_false] at h
        obtain ⟨n, hn, hlt, hp, hfree, hbelow⟩ := ih (c + 1) p h
        refine ⟨n, by omega, by omega, hp, hfree, fun m h1 h2 => ?_⟩
        by_cases hm : m = c
        · rw [hm]
          exact hs
        · exact hbelow m (by omega) h2

theorem collisionLoop_none (fs : FS) (d stem ext : Str) :
    ∀ (fuel c : Nat), collisionLoop fs d stem ext fuel c = none →
      ∀ m, c ≤ m → m < c + fuel →
        fs.stat (filepathJoin d (suffixedName stem m ext)) ≠ .notExist := by
  intro fuel
  induction fuel with
  | zero => intro c _ m h1 h2; omega
  | succ fuel ih =>
      intro c h m h1 h2
      simp only [collisionLoop] at h
      by_cases hs : fs.stat (filepathJoin d (suffixedName stem c ext)) = .notExist
      · simp [hs] at h
      · simp only [hs, if_false] at h
        by_cases hm : m = c
        · rw [hm]
          exact hs
        · exact ih (c + 1) h m (by omega) (by omega)

theorem collisionLoop_none_of_all (fs : FS) (d stem ext : Str) :
    ∀ (fuel c : Nat),
      (∀ m, c ≤ m → fs.stat (filepathJoin d (suffixedName stem m ext)) ≠ .notExist) →
      collisionLoop fs d stem ext fuel c = none := by
  intro fuel
  induction fuel with
  | zero => intro c _; rfl
  | succ fuel ih =>
      intro c h
      simp only [collisionLoop, h c (Nat.le_refl c), if_false]
      exact ih (c + 1) (fun m hm => h m (by omega))

theorem stat_ok_mem {fs : FS} {p : Str} (h : fs.stat p = .ok) : p ∈ fs.files ++ fs.dirs := by
  unfold FS.stat at h
  cases hw : fs.walk [] (splitSep p).dropLast with
  | ok =>
      simp only [hw] at h
      by_cases h1 : fs.nameMax < utf8Len ((splitSep p).getLast?.getD [])
      · simp [h1] at h
      · simp only [h1, if_false] at h
        by_cases h2 : p ∈ fs.files ∨ p ∈ fs.dirs
        · exact List.mem_append.2 h2
        · simp [h2] at h
  | notExist => simp [hw] at h
  | otherError => simp [hw] at h

/-- Among the first candidates, one more than there are existing paths, one is
not an existing path. -/
theorem exists_candidate_not_ok (fs : FS) (d stem f : Str) :
    ∃ m, 1 ≤ m ∧ m ≤ fs.files.length + fs.dirs.length + 1 ∧
      fs.stat (filepathJoin d (suffixedName stem m (filepathExt f))) ≠ .ok := by
  by_contra hno
  have hall : ∀ m, 1 ≤ m → m ≤ fs.files.length + fs.dirs.length + 1 →
      fs.stat (filepathJoin d (suffixedName stem m (filepathExt f))) = .ok := by
    intro m h1 h2
    by_contra h3
    exact hno ⟨m, h1, h2, h3⟩
  have hnodup : ((List.range (fs.files.length + fs.dirs.length + 1)).map
      (fun i => filepathJoin d (suffixedName stem (i + 1) (filepathExt f)))).Nodup := by
    refine List.Nodup.map ?_ (List.nodup_range _)
    intro i j hij
    have := candidate_injective d stem f hij
    omega
  have hsub : (List.range (fs.files.length + fs.dirs.length + 1)).map
      (fun i => filepathJoin d (suffixedName stem (i + 1) (filepathExt f)))
      ⊆ fs.files ++ fs.dirs := by
    intro p hp
    obtain ⟨i, hi, rfl⟩ := List.mem_map.1 hp
    rw [List.mem_range] at hi
    exact stat_ok_mem (hall (i + 1) (by omega) (by omega))
  have hlen := (hnodup.subperm hsub).length_le
  simp only [List.length_map, List.length_range, List.length_append] at hlen
  omega

/-- A collision loop that does not break within one more round than there are
existing paths never breaks. -/
theorem collisionLoop_none_forever (fs : FS) (d stem f : Str)
    (h : collisionLoop fs d stem (filepathExt f) (fs.files.length + fs.dirs.length + 1) 1
      = none) :
    ∀ fuel : Nat, collisionLoop fs d stem (filepathExt f) fuel 1 = none := by
  have hrange := collisionLoop_none fs d stem (filepathExt f) _ _ h
  obtain ⟨m0, h1, h2, hm0⟩ := exists_candidate_not_ok fs d stem f
  have hm0' := hrange m0 h1 (by omega)
  obtain ⟨W, last, hW⟩ := stat_candidate fs d stem f
  intro fuel
  apply collisionLoop_none_of_all
  intro m hm
  by_cases hlt : m < m0
  · exact hrange m hm (by omega)
  · cases W with
    | notExist =>
        have := hW m0
        simp only at this
        exact absurd this hm0'
    | otherError =>
        have := hW m
        simp only at this
        rw [this]
        exact fun e => by cases e
    | ok =>
        have e0 := hW m0
        have e1 := hW m
        simp only at e0 e1
        by_cases hlong : fs.nameMax
            < utf8Len (last ++ (" (".toList ++ Nat.toDigits 10 m0 ++ ')' :: filepathExt f))
        · have hmono := suffix_utf8Len_mono last (filepathExt f) h1 (show m0 ≤ m by omega)
          rw [e1, if_pos (by omega)]
          exact fun e => by cases e
        · exfalso
          rw [if_neg hlong] at e0
          by_cases hin : filepathJoin d (suffixedName stem m0 (filepathExt f)) ∈ fs.files ∨
              filepathJoin d (suffixedName stem m0 (filepathExt f)) ∈ fs.dirs
          · rw [if_pos hin] at e0
            exact hm0 e0
          · rw [if_neg hin] at e0
            exact hm0' e0

theorem newPathFor_none {fs : FS} {d f : Str} (h : newPathFor fs d f = none) :
    fs.stat (filepathJoin d f) = .ok ∧
      collisionLoop fs d (trimSuffix f (filepathExt f)) (filepathExt f)
        (fs.files.length + fs.dirs.length + 1) 1 = none := by
  unfold newPathFor at h
  by_cases hs : fs.stat (filepathJoin d f) = .ok
  · simp only [hs, if_true] at h
    exact ⟨hs, h⟩
  · simp [hs] at h

set_option maxRecDepth 100000 in
/-- C4: what the destination computation does, and where it leaves the claim.
For every state, folder `d` and name `f`: `stem ++ ext = f` for
`ext = filepath.Ext f`; the result is `d/f` when `os.Stat` does not succeed on
`d/f`; when it succeeds and no probe fails with an error other than "does not
exist", the result is `d/(stem ++ " (n)" ++ ext)` for the least `n ≥ 1` whose
path does not exist; and a loop that does not return within the rounds of the
model returns for no number of rounds.  On `fsLongName`, two files of the same
255-byte name in different folders, the first file is moved and the
computation for the second does not return: `os.Stat` succeeds on `d/f`, every
probe is too long a name, which is not "does not exist", and the loop goes on
for ever. -/
theorem newPathFor_hangs_on_long_name :
    (∀ (fs : FS) (d f : Str),
      trimSuffix f (filepathExt f) ++ filepathExt f = f ∧
      (fs.stat (filepathJoin d f) ≠ .ok → newPathFor fs d f = some (filepathJoin d f)) ∧
      (fs.stat (filepathJoin d f) = .ok →
        (∀ n, 1 ≤ n → fs.stat (filepathJoin d
          (suffixedName (trimSuffix f (filepathExt f)) n (filepathExt f))) ≠ .otherError) →
        ∃ n, 1 ≤ n ∧ n ≤ fs.files.length + fs.dirs.length + 1 ∧
          newPathFor fs d f = some (filepathJoin d
            (suffixedName (trimSuffix f (filepathExt f)) n (filepathExt f))) ∧
          fs.stat (filepathJoin d
            (suffixedName (trimSuffix f (filepathExt f)) n (filepathExt f))) = .notExist ∧
          ∀ m, 1 ≤ m → m < n → fs.stat (filepathJoin d
            (suffixedName (trimSuffix f (filepathExt f)) m (filepathExt f))) = .ok) ∧
      (newPathFor fs d f = none →
        ∀ fuel, collisionLoop fs d (trimSuffix f (filepathExt f)) (filepathExt f) fuel 1
          = none)) ∧
    utf8Len longName = 255 ∧
    classify longName = some "A".toList ∧
    (processFile "/m".toList fsLongName ("/m/x/".toList ++ longName)).fs = fsLongNameMoved ∧
    fsLongNameMoved.stat (filepathJoin "/m/A".toList longName) = .ok ∧
    fsLongNameMoved.stat (filepathJoin "/m/A".toList
      (suffixedName (trimSuffix longName (filepathExt longName)) 1 (filepathExt longName)))
      = .otherError ∧
    newPathFor fsLongNameMoved "/m/A".toList longName = none ∧
    (∀ fuel, collisionLoop fsLongNameMoved "/m/A".toList
      (trimSuffix longName (filepathExt longName)) (filepathExt longName) fuel 1 = none) ∧
    sortLoop "/m".toList fsLongName ["/m/x/".toList ++ longName, "/m/y/".toList ++ longName]
      = ⟨fsLongNameMoved, 1,
          [[.mkdirAll "/m/A".toList true,
            .rename ("/m/x/".toList ++ longName) ("/m/A/".toList ++ longName) true],
           [.mkdirAll "/m/A".toList true]], false⟩ := by
  have hlong : newPathFor fsLongNameMoved "/m/A".toList longName = none := by decide
  refine ⟨fun fs d f => ⟨trimSuffix_append_ext f, ?_, ?_, ?_⟩, by decide, by decide, by decide,
    by decide, by decide, hlong, collisionLoop_none_forever _ _ _ _ (newPathFor_none hlong).2,
    by decide⟩
  · intro hs
    simp [newPathFor, hs]
  · intro hs herr
    obtain ⟨m0, h1, h2, hm0⟩ :=
      exists_candidate_not_ok fs d (trimSuffix f (filepathExt f)) f
    have hfree : fs.stat (filepathJoin d
        (suffixedName (trimSuffix f (filepathExt f)) m0 (filepathExt f))) = .notExist := by
      have h3 := herr m0 h1
      cases hc : fs.stat (filepathJoin d
          (suffixedName (trimSuffix f (filepathExt f)) m0 (filepathExt f))) with
      | ok => exact absurd hc hm0
      | notExist => rfl
      | otherError => exact absurd hc h3
    cases hl : collisionLoop fs d (trimSuffix f (filepathExt f)) (filepathExt f)
        (fs.files.length + fs.dirs.length + 1) 1 with
    | none => exact absurd hfree (collisionLoop_none _ _ _ _ _ _ hl m0 h1 (by omega))
    | some p =>
        obtain ⟨n, hn, hlt, hp, hpfree, hbelow⟩ := collisionLoop_some _ _ _ _ _ _ p hl
        refine ⟨n, hn, by omega, ?_, hp ▸ hpfree, fun m hm1 hm2 => ?_⟩
        · simp only [newPathFor, hs, if_true]
          rw [hl, hp]
        · have h3 := herr m hm1
          have h4 := hbelow m hm1 hm2
          cases hc : fs.stat (filepathJoin d
              (suffixedName (trimSuffix f (filepathExt f)) m (filepathExt f))) with
          | ok => rfl
          | notExist => exact absurd hc h4
          | otherError => exact absurd hc h3
  · intro hnone
    exact collisionLoop_none_forever _ _ _ _ (newPathFor_none hnone).2

/-! ## The processing loop -/

theorem callsAllowed_nil (filePath : Str) : CallsAllowed filePath [] := by
  unfold CallsAllowed
  refine ⟨by simp, ?_, fun _ => rfl⟩
  intro e he
  cases he

theorem callsAllowed_mkdir (filePath path : Str) (ok : Bool)
    (hskip : ¬ (classify (filepathBase filePath) = none ∨
      ∃ a, classify (filepathBase filePath) = some a ∧ cleanArtistName a = [])) :
    CallsAllowed filePath [Event.mkdirAll path ok] := by
  unfold CallsAllowed
  refine ⟨by simp [List.countP_cons, Event.isRename], ?_, fun h => absurd h hskip⟩
  intro e he hr
  simp only [List.mem_singleton] at he
  subst he
  cases hr

theorem callsAllowed_move (filePath path newPath trimmed : Str) (ok1 ok2 : Bool)
    (hc : classify (filepathBase filePath) = some trimmed)
    (ha : cleanArtistName trimmed ≠ []) :
    CallsAllowed filePath [Event.mkdirAll path ok1, Event.rename filePath newPath ok2] := by
  unfold CallsAllowed
  refine ⟨by simp [List.countP_cons, Event.isRename], ?_, ?_⟩
  · intro e he hr
    simp only [List.mem_cons, List.mem_singleton, List.not_mem_nil, or_false] at he
    rcases he with rfl | rfl
    · cases hr
    · exact ⟨rfl, trimmed, hc, ha⟩
  · rintro (h | ⟨a, h1, h2⟩)
    · rw [hc] at h
      cases h
    · rw [hc] at h1
      cases h1
      exact absurd h2 ha

theorem processFile_spec (folderPath : Str) (fs : FS) (filePath : Str) :
    CallsAllowed filePath (processFile folderPath fs filePath).events ∧
      (processFile folderPath fs filePath).inc
        = (processFile folderPath fs filePath).events.countP Event.isRenameOk := by
  simp only [processFile]
  cases hc : classify (filepathBase filePath) with
  | none => exact ⟨callsAllowed_nil _, rfl⟩
  | some trimmed =>
      simp only
      by_cases ha : cleanArtistName trimmed = []
      · simp only [ha, if_true]
        exact ⟨callsAllowed_nil _, rfl⟩
      · have hskip : ¬ (classify (filepathBase filePath) = none ∨
            ∃ a, classify (filepathBase filePath) = some a ∧ cleanArtistName a = []) := by
          rintro (h | ⟨a, h1, h2⟩)
          · rw [hc] at h
            cases h
          · rw [hc] at h1
            cases h1
            exact ha h2
        simp only [ha, if_false]
        cases hm : fs.mkdirAll (filepathJoin folderPath (cleanArtistName trimmed)) with
        | none =>
            exact ⟨callsAllowed_mkdir _ _ _ hskip, by simp [List.countP_cons, Event.isRenameOk]⟩
        | some fs1 =>
            simp only
            cases hn : newPathFor fs1 (filepathJoin folderPath (cleanArtistName trimmed))
                (filepathBase filePath) with
            | none =>
                exact ⟨callsAllowed_mkdir _ _ _ hskip,
                  by simp [List.countP_cons, Event.isRenameOk]⟩
            | some newPath =>
                simp only
                cases hr : fs1.rename filePath newPath with
                | none =>
                    exact ⟨callsAllowed_move _ _ _ _ _ _ hc ha,
                      by simp [List.countP_cons, Event.isRenameOk]⟩
                | some fs2 =>
                    exact ⟨callsAllowed_move _ _ _ _ _ _ hc ha,
                      by simp [List.countP_cons, Event.isRenameOk]⟩

theorem processFile_not_returned (folderPath : Str) (fs : FS) (filePath : Str)
    (h : (processFile folderPath fs filePath).returned = false) :
    ∃ (fs1 : FS) (d : Str), newPathFor fs1 d (filepathBase filePath) = none := by
  simp only [processFile] at h
  cases hc : classify (filepathBase filePath) with
  | none => simp [hc] at h
  | some trimmed =>
      simp only [hc] at h
      by_cases ha : cleanArtistName trimmed = []
      · simp [ha] at h
      · simp only [ha, if_false] at h
        cases hm : fs.mkdirAll (filepathJoin folderPath (cleanArtistName trimmed)) with
        | none => simp [hm] at h
        | some fs1 =>
            simp only [hm] at h
            cases hn : newPathFor fs1 (filepathJoin folderPath (cleanArtistName trimmed))
                (filepathBase filePath) with
            | none => exact ⟨fs1, _, hn⟩
            | some newPath =>
                simp only [hn] at h
                cases hr : fs1.rename filePath newPath with
                | none => simp [hr] at h
                | some fs2 => simp [hr] at h

/-- C7: over an explicit file-system state and for every list of candidate
files, in the run of the processing loop, whether it comes to its end or is
caught in a collision loop: for each file taken up at most one move is issued,
of that file, and only when the classifier matched its base name and the
sanitized artist is non-empty; for an unmatched name or an empty sanitized
artist no call is issued at all (no directory creation, no move); the count
equals the number of moves that succeeded; a run that comes to its end has
taken up every file; and a run does not come to its end only when the collision
loop of one of the files returns for no number of rounds. -/
theorem sortLoop_spec (folderPath : Str) :
    ∀ (files : List Str) (fs : FS),
      List.Forall₂ CallsAllowed
          (files.take (sortLoop folderPath fs files).log.length)
          (sortLoop folderPath fs files).log ∧
        (sortLoop folderPath fs files).count
          = ((sortLoop folderPath fs files).log.map
              (fun evs => evs.countP Event.isRenameOk)).sum ∧
        ((sortLoop folderPath fs files).finished = true →
          (sortLoop folderPath fs files).log.length = files.length) ∧
        ((sortLoop folderPath fs files).finished = false →
          ∃ filePath ∈ files, ∃ (fs1 : FS) (d : Str),
            newPathFor fs1 d (filepathBase filePath) = none ∧
            ∀ fuel, collisionLoop fs1 d
              (trimSuffix (filepathBase filePath) (filepathExt (filepathBase filePath)))
              (filepathExt (filepathBase filePath)) fuel 1 = none) := by
  intro files
  induction files with
  | nil =>
      intro fs
      refine ⟨List.Forall₂.nil, rfl, fun _ => rfl, fun h => ?_⟩
      cases h
  | cons filePath more ih =>
      intro fs
      obtain ⟨hcalls, hinc⟩ := processFile_spec folderPath fs filePath
      by_cases hret : (processFile folderPath fs filePath).returned = true
      · obtain ⟨hall, hcount, hfin, hhang⟩ := ih (processFile folderPath fs filePath).fs
        simp only [sortLoop, hret, if_true, List.length_cons, List.take_succ_cons,
          List.map_cons, List.sum_cons]
        refine ⟨List.Forall₂.cons hcalls hall, by rw [hinc, hcount],
          fun h => by rw [hfin h], fun h => ?_⟩
        obtain ⟨fp, hfp, fs1, d, h1, h2⟩ := hhang h
        exact ⟨fp, List.mem_cons_of_mem _ hfp, fs1, d, h1, h2⟩
      · simp only [sortLoop, hret, Bool.false_eq_true, if_false, List.length_singleton,
          List.take_succ_cons, List.take_zero, List.map_cons, List.map_nil, List.sum_cons,
          List.sum_nil, Nat.add_zero]
        refine ⟨List.Forall₂.cons hcalls List.Forall₂.nil, hinc, ?_, fun _ => ?_⟩
        · intro h
          cases h
        obtain ⟨fs1, d, h1⟩ := processFile_not_returned folderPath fs filePath (by simpa using hret)
        exact ⟨filePath, List.mem_cons_self _ _, fs1, d, h1,
          collisionLoop_none_forever _ _ _ _ (newPathFor_none h1).2⟩

/-- Witness of C7: one matched file is moved and counted, one unmatched file
gets no call, and the run comes to its end. -/
theorem sortLoop_spec_witness :
    sortLoop "/m".toList ⟨["/m/Metallica - Master of Puppets.mp3".toList,
        "/m/NoHyphenHere.mp3".toList], ["/m".toList], [], 255⟩
        ["/m/Metallica - Master of Puppets.mp3".toList, "/m/NoHyphenHere.mp3".toList]
      = ⟨⟨["/m/Metallica/Metallica - Master of Puppets.mp3".toList,
            "/m/NoHyphenHere.mp3".toList], ["/m/Metallica".toList, "/m".toList], [], 255⟩, 1,
          [[.mkdirAll "/m/Metallica".toList true,
            .rename "/m/Metallica - Master of Puppets.mp3".toList
              "/m/Metallica/Metallica - Master of Puppets.mp3".toList true], []], true⟩ ∧
    (sortLoop "/m".toList ⟨["/m/Metallica - Master of Puppets.mp3".toList,
        "/m/NoHyphenHere.mp3".toList], ["/m".toList], [], 255⟩
        ["/m/Metallica - Master of Puppets.mp3".toList, "/m/NoHyphenHere.mp3".toList]).count
      = ((sortLoop "/m".toList ⟨["/m/Metallica - Master of Puppets.mp3".toList,
        "/m/NoHyphenHere.mp3".toList], ["/m".toList], [], 255⟩
        ["/m/Metallica - Master of Puppets.mp3".toList, "/m/NoHyphenHere.mp3".toList]).log.map
          (fun evs => evs.countP Event.isRenameOk)).sum :=
  ⟨by decide,
    (sortLoop_spec "/m".toList
      ["/m/Metallica - Master of Puppets.mp3".toList, "/m/NoHyphenHere.mp3".toList]
      ⟨["/m/Metallica - Master of Puppets.mp3".toList, "/m/NoHyphenHere.mp3".toList],
        ["/m".toList], [], 255⟩).2.1⟩

/-! ## Inputs on which the program leaves its intended behaviour -/

/-- C6: the sanitized artist never contains a separator (`/` or `\`), but it can
be `..`: the file name `.. - x.mp3` is matched, its sanitized artist is `..`,
the artist folder `filepath.Join("/music", "..")` is `/`, not a child of the
root, and the file is moved out of the root. -/
theorem artist_dotdot_leaves_root :
    (∀ raw : Str, '/' ∉ cleanArtistName raw ∧ backslash ∉ cleanArtistName raw) ∧
    classify ".. - x.mp3".toList = some "..".toList ∧
    cleanArtistName "..".toList = "..".toList ∧
    filepathJoin "/music".toList "..".toList = "/".toList ∧
    sortLoop "/music".toList
        ⟨["/music/.. - x.mp3".toList], ["/".toList, "/music".toList], [], 255⟩
        ["/music/.. - x.mp3".toList]
      = ⟨⟨["/.. - x.mp3".toList], ["/".toList, "/music".toList], [], 255⟩, 1,
          [[.mkdirAll "/".toList true,
            .rename "/music/.. - x.mp3".toList "/.. - x.mp3".toList true]], true⟩ :=
  ⟨fun raw => ⟨cleanArtistName_avoids raw _ (by decide), cleanArtistName_avoids raw _ (by decide)⟩,
    by decide, by decide, by decide, by decide⟩

/-- C9: for the input consisting of one double quote, `HasPrefix` and
`HasSuffix` both hold and the slice `folderPath[1 : len(folderPath)-1]` is
`folderPath[1:0]`, which panics. -/
theorem intake_lone_quote_panics :
    trimSpace [dquote] = [dquote] ∧
    ([dquote].isPrefixOf [dquote] && [dquote].isSuffixOf [dquote]) = true ∧
    goSlice [dquote] 1 (([dquote].length : Int) - 1) = none ∧
    intake [dquote] = Intake.panic := by
  decide

/-- C10: a file already at `root/<artist>/<name>` collides with itself and is
renamed to `<stem> (1)<ext>`; a further run renames it again. -/
theorem resort_renames_sorted_file :
    classify (filepathBase "/m/Queen/Queen - Bohemian Rhapsody.mp3".toList)
      = some "Queen".toList ∧
    cleanArtistName "Queen".toList = "Queen".toList ∧
    filepathJoin (filepathJoin "/m".toList "Queen".toList)
        (filepathBase "/m/Queen/Queen - Bohemian Rhapsody.mp3".toList)
      = "/m/Queen/Queen - Bohemian Rhapsody.mp3".toList ∧
    sortLoop "/m".toList
        ⟨["/m/Queen/Queen - Bohemian Rhapsody.mp3".toList],
          ["/m".toList, "/m/Queen".toList], [], 255⟩
        ["/m/Queen/Queen - Bohemian Rhapsody.mp3".toList]
      = ⟨⟨["/m/Queen/Queen - Bohemian Rhapsody (1).mp3".toList],
            ["/m".toList, "/m/Queen".toList], [], 255⟩, 1,
          [[.mkdirAll "/m/Queen".toList true,
            .rename "/m/Queen/Queen - Bohemian Rhapsody.mp3".toList
              "/m/Queen/Queen - Bohemian Rhapsody (1).mp3".toList true]], true⟩ ∧
    sortLoop "/m".toList
        ⟨["/m/Queen/Queen - Bohemian Rhapsody (1).mp3".toList],
          ["/m".toList, "/m/Queen".toList], [], 255⟩
        ["/m/Queen/Queen - Bohemian Rhapsody (1).mp3".toList]
      = ⟨⟨["/m/Queen/Queen - Bohemian Rhapsody (1) (1).mp3".toList],
            ["/m".toList, "/m/Queen".toList], [], 255⟩, 1,
          [[.mkdirAll "/m/Queen".toList true,
            .rename "/m/Queen/Queen - Bohemian Rhapsody (1).mp3".toList
              "/m/Queen/Queen - Bohemian Rhapsody (1) (1).mp3".toList true]], true⟩ := by
  decide

end MusicSorter
